import Mathlib

/-!
# Verification of the tinylsm LSM key-value store

Shallow embedding of the Go sources of `tinylsm` (package `lsm`): the skip
list / memtable, the write-ahead log writer/reader/recovery, the Bloom
filter, the sorted-table (SSTable) writer/reader/iterator and the `DB`
engine.  Byte strings are modelled as `List Nat` (each element one byte);
fixed-width machine arithmetic is made explicit with `% 2 ^ w`.
-/

namespace TinyLsm

/-! ## Little-endian encoding (Go `encoding/binary`, little endian) -/

/-- `leBytes w n` encodes `n` as `w` little-endian bytes (low byte first),
as Go's `binary.LittleEndian.PutUintXX` does for `w ∈ {4, 8}`. -/
def leBytes : Nat → Nat → List Nat
  | 0, _ => []
  | w + 1, n => (n % 256) :: leBytes w (n / 256)

/-- `leVal bs` decodes a little-endian byte list back to a natural number,
as Go's `binary.LittleEndian.UintXX` does. -/
def leVal : List Nat → Nat
  | [] => 0
  | b :: bs => b + 256 * leVal bs

/-! ## List slicing helpers -/

/-! ## Byte-string comparison (Go `bytes.Compare`, `DefaultComparator`) -/

/-- Lexicographic comparison of byte strings returning `-1`, `0` or `1`,
the shallow embedding of `bytes.Compare` used by `DefaultComparator`. -/
def compareBytes : List Nat → List Nat → Int
  | [], [] => 0
  | [], _ :: _ => -1
  | _ :: _, [] => 1
  | a :: as, b :: bs => if a < b then -1 else if b < a then 1 else compareBytes as bs

/-! ## CRC-32 (IEEE, reflected polynomial 0xEDB88320, Go `hash/crc32`) -/

/-- One bit-step of the reflected CRC-32 computation. -/
def crcBitStep (c : Nat) : Nat :=
  if c % 2 = 1 then (c / 2) ^^^ 0xEDB88320 else c / 2

/-- Process one byte into the running CRC state. -/
def crcByteStep (c b : Nat) : Nat :=
  let c0 := c ^^^ (b % 256)
  crcBitStep (crcBitStep (crcBitStep (crcBitStep
    (crcBitStep (crcBitStep (crcBitStep (crcBitStep c0)))))))

/-- IEEE CRC-32 of a byte list, the embedding of `crc32.ChecksumIEEE`. -/
def crc32 (bs : List Nat) : Nat :=
  ((bs.foldl crcByteStep 0xFFFFFFFF) ^^^ 0xFFFFFFFF) % 2 ^ 32

/-! ## FNV 32-bit hashes (Go `hash/fnv`) -/

/-- FNV-1a 32-bit hash (`fnv.New32a`): xor the byte, then multiply. -/
def fnv1a32 (bs : List Nat) : Nat :=
  bs.foldl (fun h b => ((h ^^^ b % 256) * 16777619) % 2 ^ 32) 2166136261

/-- FNV-1 32-bit hash (`fnv.New32`): multiply, then xor the byte. -/
def fnv132 (bs : List Nat) : Nat :=
  bs.foldl (fun h b => ((h * 16777619) % 2 ^ 32) ^^^ b % 256) 2166136261

/-! ## Entries (`Entry`, `NewEntry`, `NewTombstone`, `Entry.Size`) -/

/-- `Entry`: key, value, tombstone flag and reserved timestamp. -/
structure Entry where
  Key : List Nat
  Value : List Nat
  Deleted : Bool
  Timestamp : Nat
deriving Repr, DecidableEq

/-- `Entry.Size`: `len(key) + len(value) + 1 + 8`. -/
def Entry.Size (e : Entry) : Int :=
  (e.Key.length : Int) + e.Value.length + 1 + 8

/-- `NewEntry` builds a live entry. -/
def NewEntry (key value : List Nat) : Entry :=
  { Key := key, Value := value, Deleted := false, Timestamp := 0 }

/-- `NewTombstone` builds a deletion marker (nil value, modelled `[]`). -/
def NewTombstone (key : List Nat) : Entry :=
  { Key := key, Value := [], Deleted := true, Timestamp := 0 }

/-! ## Skip list (`skiplist.go`)

The skip list is semantically a sorted map from keys to entries; each node
additionally carries the tower level drawn by `randomLevel`.  We model the
list as the sorted sequence of (entry, level) nodes, together with the
`size`, `count` and `randSeed` fields maintained by the Go code.  Forward
pointers are determined by the sorted order and node levels, so this state
captures the list shape. -/

/-- `maxLevel = 12` from `skiplist.go`. -/
def maxLevel : Nat := 12

/-- `probability = 4` (inverse promotion probability) from `skiplist.go`. -/
def probability : Nat := 4

/-- A skip-list node: the stored entry plus the node's tower level. -/
structure SkipNode where
  entry : Entry
  level : Nat
deriving Repr, DecidableEq

/-- Skip-list state: nodes sorted strictly by key, plus the Go struct's
`size`, `count` and `randSeed` bookkeeping fields. -/
structure SkipList where
  nodes : List SkipNode
  size : Int
  count : Nat
  randSeed : Nat
deriving Repr, DecidableEq

/-- `NewSkipListWithComparator`: empty list, level 1, seed `0xdeadbeef`. -/
def NewSkipList : SkipList :=
  { nodes := [], size := 0, count := 0, randSeed := 0xdeadbeef }

/-- The promotion loop of `randomLevel`: starting at `level`, promote while
`level < maxLevel` and `r % probability == 0`, dividing `r` by `probability`
each time.  The fuel argument only bounds the recursion; `maxLevel` units
are always enough because each iteration increments `level` towards
`maxLevel`, so the fuel never runs out before the loop condition fails. -/
def levelLoopAux : Nat → Nat → Nat → Nat
  | 0, level, _ => level
  | fuel + 1, level, r =>
    if level < maxLevel ∧ r % probability = 0 then levelLoopAux fuel (level + 1) (r / probability)
    else level

/-- The promotion loop of `randomLevel`, starting from `level`. -/
def levelLoop (level r : Nat) : Nat :=
  levelLoopAux maxLevel level r

/-- `SkipList.randomLevel`: steps the 32-bit LCG seed once
(`s' = s*1664525 + 1013904223` mod `2^32`) and derives the level from the
new seed.  Returns `(level, new seed)`. -/
def randomLevel (seed : Nat) : Nat × Nat :=
  (levelLoop 1 ((seed * 1664525 + 1013904223) % 2 ^ 32),
   (seed * 1664525 + 1013904223) % 2 ^ 32)

/-- Find the entry stored under `key` (the `compare == 0` hit of
`SkipList.Get`), if any. -/
def slFind (nodes : List SkipNode) (key : List Nat) : Option Entry :=
  match nodes with
  | [] => none
  | n :: rest => if compareBytes n.entry.Key key = 0 then some n.entry else slFind rest key

/-- Replace the entry stored under `key` in the node list, keeping the node's
key bytes and tower level, as the update branch of `PutEntry` does. -/
def slReplace (nodes : List SkipNode) (e : Entry) : List SkipNode :=
  match nodes with
  | [] => []
  | n :: rest =>
    if compareBytes n.entry.Key e.Key = 0 then
      let updated : Entry :=
        { Key := n.entry.Key, Value := e.Value, Deleted := e.Deleted, Timestamp := e.Timestamp }
      { entry := updated, level := n.level } :: rest
    else n :: slReplace rest e

/-- Insert a fresh node in sorted key position (the insert branch of
`PutEntry`); assumes the key is not present. -/
def slInsert (nodes : List SkipNode) (node : SkipNode) : List SkipNode :=
  match nodes with
  | [] => [node]
  | n :: rest =>
    if compareBytes n.entry.Key node.entry.Key = -1 then n :: slInsert rest node
    else node :: n :: rest

/-- `SkipList.PutEntry`: update in place when the key exists (adjusting
`size` by the entry-size difference), otherwise draw a level from the LCG
and insert a new node. -/
def SkipList.PutEntry (sl : SkipList) (e : Entry) : SkipList :=
  match slFind sl.nodes e.Key with
  | some old =>
    { sl with nodes := slReplace sl.nodes e,
              size := sl.size + (e.Size - old.Size) }
  | none =>
    let lv := randomLevel sl.randSeed
    { sl with nodes := slInsert sl.nodes { entry := e, level := lv.1 },
              size := sl.size + e.Size,
              count := sl.count + 1,
              randSeed := lv.2 }

/-- `SkipList.Put`. -/
def SkipList.Put (sl : SkipList) (key value : List Nat) : SkipList :=
  sl.PutEntry (NewEntry key value)

/-- `SkipList.Delete`: inserts a tombstone. -/
def SkipList.Delete (sl : SkipList) (key : List Nat) : SkipList :=
  sl.PutEntry (NewTombstone key)

/-- `SkipList.Get`: returns `(value, deleted, found)`; Go's `nil` value is
modelled as `[]`. -/
def SkipList.Get (sl : SkipList) (key : List Nat) : List Nat × Bool × Bool :=
  match slFind sl.nodes key with
  | some e => (e.Value, e.Deleted, true)
  | none => ([], false, false)

/-! ## Memtable (`Memtable`, state machine wrapper) -/

/-- Errors surfaced by the store (from the package's error values). -/
inductive DbError where
  | notFound
  | memtableImmutable
  | closed
  | walWriteFailed
  | corruptedData
deriving Repr, DecidableEq

/-- `Memtable`: skip list plus an active/immutable state and flush threshold. -/
structure Memtable where
  data : SkipList
  state : Nat
  maxsize : Int
deriving Repr, DecidableEq

/-- `memtableActive = 0`. -/
def memtableActive : Nat := 0

/-- `memtableImmutable = 1`. -/
def memtableImmutable : Nat := 1

/-- `NewMemtable`. -/
def NewMemtable (maxsize : Int) : Memtable :=
  { data := NewSkipList, state := memtableActive, maxsize := maxsize }

/-- `Memtable.Put`: fails on a frozen memtable, otherwise writes through to
the skip list.  Returns the updated memtable alongside the error result. -/
def Memtable.Put (m : Memtable) (key value : List Nat) : Except DbError Unit × Memtable :=
  if m.state ≠ memtableActive then (.error .memtableImmutable, m)
  else (.ok (), { m with data := m.data.Put key value })

/-- `Memtable.Delete`. -/
def Memtable.Delete (m : Memtable) (key : List Nat) : Except DbError Unit × Memtable :=
  if m.state ≠ memtableActive then (.error .memtableImmutable, m)
  else (.ok (), { m with data := m.data.Delete key })

/-- `Memtable.Get` returns `(value, deleted, found)`. -/
def Memtable.Get (m : Memtable) (key : List Nat) : List Nat × Bool × Bool :=
  m.data.Get key

/-- `Memtable.Size`. -/
def Memtable.Size (m : Memtable) : Int := m.data.size

/-- `Memtable.IsFull`. -/
def Memtable.IsFull (m : Memtable) : Bool := m.data.size ≥ m.maxsize

/-- `Memtable.SetImmutable`. -/
def Memtable.SetImmutable (m : Memtable) : Memtable :=
  { m with state := memtableImmutable }

/-- `Memtable.Count`. -/
def Memtable.Count (m : Memtable) : Nat := m.data.count

/-! ## Bloom filter (`bloom.go`)

Machine widths: `numBits`/`numItems` are `uint64`, `numHash` is `uint32`,
`bits` is a byte slice.  Arithmetic that can wrap in Go carries an explicit
`% 2 ^ 64`. -/

/-- Bloom filter state. -/
structure BloomFilter where
  bits : List Nat
  numBits : Nat
  numHash : Nat
  numItems : Nat
deriving Repr, DecidableEq

/-- The IEEE-754 binary64 value of `math.Ln2` is exactly
`ln2Scaled / 2 ^ 53`. -/
def ln2Scaled : Nat := 6243314768165359

/-- `NewBloomFilter`.  Go takes `int` arguments and resets non-positive ones
(`expectedItems <= 0` to 1, `bitsPerKey <= 0` to 10); with `Nat` arguments
the guard is `= 0`.  `uint64(expectedItems * bitsPerKey)` and the later
`uint64` additions/multiplications wrap, hence the `% 2 ^ 64`.
`uint32(float64(bitsPerKey) * math.Ln2)` truncates the product toward zero;
we model the binary64 product as the exact rational product with the
`math.Ln2` constant (`ln2Scaled / 2 ^ 53`) followed by truncation — the
final float rounding cannot carry the product across an integer for any
realistic `bitsPerKey`. -/
def NewBloomFilter (expectedItems bitsPerKey : Nat) : BloomFilter :=
  let items := if expectedItems = 0 then 1 else expectedItems
  let bpk := if bitsPerKey = 0 then 10 else bitsPerKey
  let numBits0 := (items * bpk) % 2 ^ 64
  let numBits1 := if numBits0 < 64 then 64 else numBits0
  let numBytes := ((numBits1 + 7) % 2 ^ 64) / 8
  let numBits2 := (numBytes * 8) % 2 ^ 64
  let numHash0 := bpk * ln2Scaled / 2 ^ 53
  let numHash1 := if numHash0 < 1 then 1 else numHash0
  let numHash2 := if numHash1 > 30 then 30 else numHash1
  { bits := List.replicate numBytes 0, numBits := numBits2,
    numHash := numHash2, numItems := 0 }

/-- `BloomFilter.hash`: FNV-1a and FNV-1 (the latter forced odd). -/
def bfHash (key : List Nat) : Nat × Nat :=
  let hash1 := fnv1a32 key
  let hash2 := fnv132 key
  (hash1, if hash2 % 2 = 0 then hash2 + 1 else hash2)

/-- `setBit`: set bit `idx` (byte `idx / 8`, bit `idx % 8`).  Go panics on an
out-of-bounds byte index; well-formed filters never index out of bounds, and
the model's `getD`/`set` are simply inert there. -/
def BloomFilter.setBit (bf : BloomFilter) (idx : Nat) : BloomFilter :=
  { bf with bits := bf.bits.set (idx / 8) (bf.bits.getD (idx / 8) 0 ||| (1 <<< (idx % 8))) }

/-- `getBit`. -/
def BloomFilter.getBit (bf : BloomFilter) (idx : Nat) : Bool :=
  (bf.bits.getD (idx / 8) 0 &&& (1 <<< (idx % 8))) != 0

/-- `BloomFilter.Add`: double hashing `h1 + i*h2 (mod numBits)` for
`i < numHash` (no 64-bit wrap is possible since `h1, h2 < 2^32` and
`i < numHash ≤ 2^32`), then `numItems++`. -/
def BloomFilter.Add (bf : BloomFilter) (key : List Nat) : BloomFilter :=
  let h := bfHash key
  let bf2 := (List.range bf.numHash).foldl
    (fun b i => b.setBit ((h.1 + i * h.2) % b.numBits)) bf
  { bf2 with numItems := (bf2.numItems + 1) % 2 ^ 64 }

/-- `BloomFilter.MayContain`. -/
def BloomFilter.MayContain (bf : BloomFilter) (key : List Nat) : Bool :=
  let h := bfHash key
  (List.range bf.numHash).all (fun i => bf.getBit ((h.1 + i * h.2) % bf.numBits))

/-- `BloomFilter.Encode`: `[numBits:8][numHash:4][numItems:8][bits...]`. -/
def BloomFilter.Encode (bf : BloomFilter) : List Nat :=
  leBytes 8 bf.numBits ++ leBytes 4 bf.numHash ++ leBytes 8 bf.numItems ++ bf.bits

/-- `DecodeBloomFilter`.  `expectedSize := int((numBits+7)/8)` is `uint64`
arithmetic, so `numBits + 7` wraps at `2 ^ 64`; the subsequent `int`
conversion cannot go negative because the quotient is below `2 ^ 61`. -/
def DecodeBloomFilter (data : List Nat) : Except DbError BloomFilter :=
  if data.length < 20 then .error .corruptedData
  else if data.length < 20 + ((leVal (data.take 8) + 7) % 2 ^ 64) / 8 then
    .error .corruptedData
  else .ok { bits := (data.drop 20).take (((leVal (data.take 8) + 7) % 2 ^ 64) / 8),
             numBits := leVal (data.take 8),
             numHash := leVal ((data.drop 8).take 4),
             numItems := leVal ((data.drop 12).take 8) }

/-- Witness input for the decode specification: a header declaring
`numBits = 64`, `numHash = 3`, followed by exactly 8 bit-array bytes. -/
def decodeWitnessData : List Nat :=
  leBytes 8 64 ++ leBytes 4 3 ++ leBytes 8 0 ++ List.replicate 8 9

/-- Well-formedness maintained by `NewBloomFilter` and `Add`: the bit count
matches the byte slice and the machine widths are respected. -/
def BloomFilter.WF (bf : BloomFilter) : Prop :=
  bf.numBits = 8 * bf.bits.length ∧ 0 < bf.numBits ∧ bf.numBits < 2 ^ 64 ∧
  bf.numHash < 2 ^ 32 ∧ bf.numItems < 2 ^ 64

/-- Modelled from the spec's words for C8: `numHash =
clamp(round(bitsPerKey * ln 2), 1, 30)`, with `ln 2` the binary64 constant
the code multiplies by and `round` = nearest integer (half up). -/
def specNumHashRounded (bitsPerKey : Nat) : Nat :=
  min 30 (max 1 ((bitsPerKey * ln2Scaled + 2 ^ 52) / 2 ^ 53))

/-- C10 counterexample input: a 20-byte header declaring
`numBits = 2 ^ 64 - 1` with no bit-array bytes at all. -/
def decodeCexData : List Nat :=
  leBytes 8 (2 ^ 64 - 1) ++ leBytes 4 0 ++ leBytes 8 0

/-! ## Write-ahead log (`wal.go`)

A WAL file is a byte sequence; the reader is a position into it.  Record
format: `[magic:4][recordLen:4][type:1][keyLen:4][valueLen:4][key][value]
[crc:4]`. -/

/-- `RecordTypePut = 1`. -/
def RecordTypePut : Nat := 1

/-- `RecordTypeDelete = 2`. -/
def RecordTypeDelete : Nat := 2

/-- `walMagic = {0xDE, 0xAD, 0xBE, 0xEF}`. -/
def walMagic : List Nat := [0xDE, 0xAD, 0xBE, 0xEF]

/-- A user-level WAL operation (`WritePut` / `WriteDelete`). -/
inductive WalOp where
  | put (key value : List Nat)
  | del (key : List Nat)
deriving Repr, DecidableEq

/-- The key of an operation. -/
def WalOp.key : WalOp → List Nat
  | .put k _ => k
  | .del k => k

/-- The value bytes an operation writes (`WriteDelete` passes nil,
modelled `[]`). -/
def WalOp.value : WalOp → List Nat
  | .put _ v => v
  | .del _ => []

/-- The record type byte of an operation. -/
def WalOp.recType : WalOp → Nat
  | .put _ _ => RecordTypePut
  | .del _ => RecordTypeDelete

/-- The bytes after magic+length: `[type][keyLen:4][valueLen:4][key][value]
[crc:4]`, exactly what `WAL.Write` emits there (`keyLen`/`valueLen` are
`uint32`, and the CRC covers type, the two length fields, key and value). -/
def recPayload (t : Nat) (key value : List Nat) : List Nat :=
  t :: (leBytes 4 key.length ++ (leBytes 4 value.length ++ (key ++ (value ++
    leBytes 4 (crc32 (t :: (leBytes 4 key.length ++ (leBytes 4 value.length ++
      (key ++ value)))))))))

/-- A whole record as `WAL.Write` emits it:
`magic ++ recordLen ++ payload`, where
`recordLen = uint32(1+4+4+len(key)+len(value)+4)`. -/
def encRecord (t : Nat) (key value : List Nat) : List Nat :=
  walMagic ++ (leBytes 4 ((13 + key.length + value.length) % 2 ^ 32) ++
    recPayload t key value)

/-- The bytes `WAL.Write` appends for one operation. -/
def WalOp.enc : WalOp → List Nat
  | .put k v => encRecord RecordTypePut k v
  | .del k => encRecord RecordTypeDelete k []

/-- The byte content of a WAL holding the operation sequence `ops`. -/
def walBytes (ops : List WalOp) : List Nat :=
  (ops.map WalOp.enc).flatten

/-- Reader-facing errors: `eof` is `io.EOF` (clean end of log); `corrupt`
covers every other `ReadRecord` error (bad magic, unexpected EOF inside a
record, oversized or short record, length mismatch, CRC mismatch). -/
inductive ReadErr where
  | eof
  | corrupt
deriving Repr, DecidableEq

/-- Parsing of a fully-read record body (`ReadRecord` after `io.ReadFull`):
type byte, `uint32` length fields, the length cross-check
`recordLen == uint32(13+keyLen+valueLen)`, key/value extraction and CRC
verification.  Out-of-range `keyLen`/`valueLen` that pass the wrapped
length check would make Go panic on slicing; the model's `take` truncates
instead (such records never arise from `WAL.Write`). -/
def parseRecord (p : List Nat) : Except ReadErr (Nat × List Nat × List Nat) :=
  if p.length < 13 then .error .corrupt
  else if p.length ≠ (13 + leVal ((p.drop 1).take 4) + leVal ((p.drop 5).take 4)) % 2 ^ 32 then
    .error .corrupt
  else if crc32 (p.headD 0 :: (leBytes 4 (leVal ((p.drop 1).take 4)) ++
      (leBytes 4 (leVal ((p.drop 5).take 4)) ++
        ((p.drop 9).take (leVal ((p.drop 1).take 4)) ++
          (p.drop (9 + leVal ((p.drop 1).take 4))).take (leVal ((p.drop 5).take 4))))))
      ≠ leVal ((p.drop (9 + leVal ((p.drop 1).take 4) + leVal ((p.drop 5).take 4))).take 4) then
    .error .corrupt
  else .ok (p.headD 0, (p.drop 9).take (leVal ((p.drop 1).take 4)),
    (p.drop (9 + leVal ((p.drop 1).take 4))).take (leVal ((p.drop 5).take 4)))

/-- `WALReader.ReadRecord` on `data` at position `pos`: returns the result
and the new reader position.  `io.ReadFull` yields `io.EOF` when no byte is
available and `ErrUnexpectedEOF` (a corrupt-class error) on a partial read,
consuming the rest of the file. -/
def ReadRecord (data : List Nat) (pos : Nat) :
    Except ReadErr (Nat × List Nat × List Nat) × Nat :=
  if (data.drop pos).length = 0 then (.error .eof, pos)
  else if (data.drop pos).length < 4 then (.error .corrupt, data.length)
  else if (data.drop pos).take 4 ≠ walMagic then (.error .corrupt, pos + 4)
  else if (data.drop pos).length = 4 then (.error .eof, pos + 4)
  else if (data.drop pos).length < 8 then (.error .corrupt, data.length)
  else if leVal (((data.drop pos).drop 4).take 4) > 100 * 1024 * 1024 then
    (.error .corrupt, pos + 8)
  else if 0 < leVal (((data.drop pos).drop 4).take 4) ∧ (data.drop pos).length = 8 then
    (.error .eof, pos + 8)
  else if (data.drop pos).length < 8 + leVal (((data.drop pos).drop 4).take 4) then
    (.error .corrupt, data.length)
  else (parseRecord (((data.drop pos).drop 8).take (leVal (((data.drop pos).drop 4).take 4))),
    pos + 8 + leVal (((data.drop pos).drop 4).take 4))

/-- The byte-by-byte magic-matching automaton of `ScanToNextRecord`.  On a
full match (the fourth magic byte at index `pos`) the reader seeks back to
the first magic byte, `pos - 3`.  One byte is consumed per step, so
`data.length + 1` units of fuel always outlast the loop. -/
def scanLoop (data : List Nat) : Nat → Nat → Nat → Bool × Nat
  | 0, pos, _ => (false, pos)
  | fuel + 1, pos, m =>
    if _h : pos < data.length then
      if data.getD pos 0 = walMagic.getD m 0 then
        (if m = 3 then (true, pos - 3) else scanLoop data fuel (pos + 1) (m + 1))
      else if data.getD pos 0 = walMagic.getD 0 0 then scanLoop data fuel (pos + 1) 1
      else scanLoop data fuel (pos + 1) 0
    else (false, pos)

/-- `WALReader.ScanToNextRecord`. -/
def ScanToNextRecord (data : List Nat) (pos : Nat) : Bool × Nat :=
  scanLoop data (data.length + 1) pos 0

/-- The recovery loop of `RecoverMemtable`: read records until `io.EOF`,
apply Put/Delete records to the skip list, and on any other error count one
corrupted record and scan forward for the next magic sequence.  Every
continuing iteration advances the position by at least 4 bytes, so
`data.length + 1` units of fuel always outlast the loop. -/
def recoverLoop (data : List Nat) :
    Nat → Nat → SkipList → Nat → Nat → SkipList × Nat × Nat
  | 0, _, mem, recovered, corrupted => (mem, recovered, corrupted)
  | fuel + 1, pos, mem, recovered, corrupted =>
    match ReadRecord data pos with
    | (.error .eof, _) => (mem, recovered, corrupted)
    | (.error .corrupt, pos2) =>
      match ScanToNextRecord data pos2 with
      | (false, _) => (mem, recovered, corrupted + 1)
      | (true, pos3) => recoverLoop data fuel pos3 mem recovered (corrupted + 1)
    | (.ok (t, key, value), pos2) =>
      if t = RecordTypePut then
        recoverLoop data fuel pos2 (mem.Put key value) (recovered + 1) corrupted
      else if t = RecordTypeDelete then
        recoverLoop data fuel pos2 (mem.Delete key) (recovered + 1) corrupted
      else recoverLoop data fuel pos2 mem recovered corrupted

/-- `RecoverMemtable` over the WAL bytes: returns the rebuilt (active)
memtable together with the `(recovered, corrupted)` counters.  The Go
function only fails when the WAL file cannot be opened; on any byte content
it returns the memtable without error. -/
def RecoverMemtable (data : List Nat) (maxSize : Int) : Memtable × Nat × Nat :=
  ({ data := (recoverLoop data (data.length + 1) 0 NewSkipList 0 0).1,
     state := memtableActive, maxsize := maxSize },
   (recoverLoop data (data.length + 1) 0 NewSkipList 0 0).2)

/-- Apply one operation to a skip list, as both replay
(`mem.data.Put`/`mem.data.Delete`) and the direct write path do. -/
def applyOp (sl : SkipList) : WalOp → SkipList
  | .put k v => sl.Put k v
  | .del k => sl.Delete k

/-- Sequential application of an operation list to a skip list. -/
def applySeq (ops : List WalOp) (sl : SkipList) : SkipList :=
  ops.foldl applyOp sl

/-- Apply one operation through the `Memtable` interface (`Memtable.Put` /
`Memtable.Delete`), keeping the updated memtable. -/
def memApplyOp (m : Memtable) : WalOp → Memtable
  | .put k v => (m.Put k v).2
  | .del k => (m.Delete k).2

/-! ## DB engine (`DB.Get`, `DB.Put`, `DB.Delete`, flush)

`DB.Get` interacts with each loaded on-disk table only through
`SSTableReader.Get`, so the engine model carries each table as its `Get`
function `key ↦ (value, deleted, found)`.  File-system concerns (paths,
globbing, the WAL file handle) stay outside the state; the WAL append's
outcome enters `Put`/`Delete` as an oracle argument. -/

/-- An on-disk table as the read path sees it. -/
abbrev TableGet := List Nat → List Nat × Bool × Bool

/-- The engine state: active memtable, optional immutable memtable being
flushed, tables newest-first, closed flag, table id counter and the
configured memtable threshold. -/
structure DB where
  memtable : Memtable
  immutable : Option Memtable
  sstables : List TableGet
  closed : Bool
  nextSSTableID : Nat
  memtableSize : Int

/-- The on-disk table loop of `DB.Get` (first `found` hit wins; tombstone
means not found; fall through to the next, older table). -/
def tablesLookup : List TableGet → List Nat → Except DbError (List Nat)
  | [], _ => .error .notFound
  | t :: ts, key =>
    if (t key).2.2 then
      (if (t key).2.1 then .error .notFound else .ok (t key).1)
    else tablesLookup ts key

/-- `DB.Get`: closed check, then active memtable, then the immutable
memtable if present, then the tables newest-first. -/
def DB.Get (db : DB) (key : List Nat) : Except DbError (List Nat) :=
  if db.closed then .error .closed
  else if (db.memtable.Get key).2.2 then
    (if (db.memtable.Get key).2.1 then .error .notFound else .ok (db.memtable.Get key).1)
  else
    match db.immutable with
    | some imm =>
      if (imm.Get key).2.2 then
        (if (imm.Get key).2.1 then .error .notFound else .ok (imm.Get key).1)
      else tablesLookup db.sstables key
    | none => tablesLookup db.sstables key

/-- `DB.doFlush`: write the immutable memtable out as a new table (its
read-side behaviour is the memtable's own `Get`), prepend it newest-first,
bump the id and clear the immutable slot. -/
def DB.doFlush (db : DB) : DB :=
  match db.immutable with
  | none => db
  | some imm =>
    { db with sstables := (fun k => imm.Get k) :: db.sstables,
              immutable := none,
              nextSSTableID := db.nextSSTableID + 1 }

/-- `DB.triggerFlush`: finish any in-progress flush, freeze the active
memtable into the immutable slot, start a fresh memtable, and flush. -/
def DB.triggerFlush (db : DB) : DB :=
  ({ db.doFlush with immutable := some db.doFlush.memtable.SetImmutable,
                     memtable := NewMemtable db.memtableSize } : DB).doFlush

/-- `DB.Put`: closed check, WAL append (`walOk` is the oracle for the WAL
write outcome — `false` models an I/O failure, which returns the wrapped
error before the memtable is touched), memtable insert, flush when full. -/
def DB.Put (db : DB) (key value : List Nat) (walOk : Bool) :
    Except DbError Unit × DB :=
  if db.closed then (.error .closed, db)
  else if ¬ walOk then (.error .walWriteFailed, db)
  else
    match (db.memtable.Put key value).1 with
    | .error e => (.error e, db)
    | .ok _ =>
      if ({ db with memtable := (db.memtable.Put key value).2 } : DB).memtable.IsFull then
        (.ok (), ({ db with memtable := (db.memtable.Put key value).2 } : DB).triggerFlush)
      else (.ok (), { db with memtable := (db.memtable.Put key value).2 })

/-- `DB.Delete`: same shape as `DB.Put` with a tombstone write. -/
def DB.Delete (db : DB) (key : List Nat) (walOk : Bool) :
    Except DbError Unit × DB :=
  if db.closed then (.error .closed, db)
  else if ¬ walOk then (.error .walWriteFailed, db)
  else
    match (db.memtable.Delete key).1 with
    | .error e => (.error e, db)
    | .ok _ =>
      if ({ db with memtable := (db.memtable.Delete key).2 } : DB).memtable.IsFull then
        (.ok (), ({ db with memtable := (db.memtable.Delete key).2 } : DB).triggerFlush)
      else (.ok (), { db with memtable := (db.memtable.Delete key).2 })

/-- Modelled from the spec's words for C1: consult the layers in order; the
first layer reporting `found` determines the result — tombstone means
`NotFound`, otherwise the layer's value; if no layer reports found,
`NotFound`. -/
def layeredLookup : List (List Nat → List Nat × Bool × Bool) → List Nat →
    Except DbError (List Nat)
  | [], _ => .error .notFound
  | f :: fs, key =>
    if (f key).2.2 then
      (if (f key).2.1 then .error .notFound else .ok (f key).1)
    else layeredLookup fs key

/-- The layer list of an open database: active memtable, immutable memtable
if present, then the tables newest-first. -/
def DB.layers (db : DB) : List (List Nat → List Nat × Bool × Bool) :=
  [db.memtable.Get] ++
    (match db.immutable with | some imm => [imm.Get] | none => []) ++ db.sstables

/-- A small concrete open database for witnesses. -/
def dbWitnessState : DB :=
  { memtable := (NewMemtable 1024 |>.Put [5] [6]).2,
    immutable := none,
    sstables := [],
    closed := false,
    nextSSTableID := 0,
    memtableSize := 1024 }

/-! ## Sorted table (SSTable, `bloom.go` second part)

The writer accumulates entries into 4 KB data blocks (each followed by its
CRC), then writes an index block, an optional Bloom filter block and a
40-byte footer.  The reader parses the footer and index and serves `Get`
via binary search on the index plus a linear scan of one block; the
iterator streams all blocks in order. -/

/-- `BlockSize = 4 * 1024`. -/
def BlockSize : Nat := 4096

/-- `SSTableMagic = 0x53535461626C6521`. -/
def SSTableMagic : Nat := 0x53535461626C6521

/-- One table entry as passed to `SSTableWriter.Add`. -/
structure TableEntry where
  key : List Nat
  value : List Nat
  deleted : Bool
deriving Repr, DecidableEq

/-- The placeholder entry (used for out-of-range reads in the model). -/
def noEntry : TableEntry := { key := [], value := [], deleted := false }

/-- Entry encoding inside a data block:
`[keyLen:4][valueLen:4][deleted:1][key][value]`. -/
def encEntry (e : TableEntry) : List Nat :=
  leBytes 4 e.key.length ++ (leBytes 4 e.value.length ++
    ((if e.deleted then 1 else 0) :: (e.key ++ e.value)))

/-- The byte content of a data block holding the entries `B`. -/
def blockBytes (B : List TableEntry) : List Nat :=
  (B.map encEntry).flatten

/-- A data block as written to the file: its bytes plus the 4-byte CRC. -/
def blockOut (B : List TableEntry) : List Nat :=
  blockBytes B ++ leBytes 4 (crc32 (blockBytes B))

/-- The data-block region of the file for the block list `Bs`. -/
def outBytes (Bs : List (List TableEntry)) : List Nat :=
  (Bs.map blockOut).flatten

/-- The index entries (first key, block offset, block size incl. CRC) for
the block list `Bs`, with offsets accumulating from `off`. -/
def indexOfBlocks : List (List TableEntry) → Nat → List (List Nat × Nat × Nat)
  | [], _ => []
  | B :: Bs, off =>
    ((B.headD noEntry).key, off, (blockBytes B).length + 4) ::
      indexOfBlocks Bs (off + ((blockBytes B).length + 4))

/-- `SSTableWriter` state (the `out` field holds the bytes written to the
file so far; file handles stay outside the model). -/
structure SSTableWriter where
  out : List Nat
  offset : Nat
  blockBuffer : List Nat
  index : List (List Nat × Nat × Nat)
  firstKey : List Nat
  entryCount : Nat
  totalKeys : Nat
  bloomFilter : Option BloomFilter
  bitsPerKey : Nat

/-- `NewSSTableWriter` (file creation aside). -/
def NewSSTableWriter (bitsPerKey : Nat) : SSTableWriter :=
  { out := [], offset := 0, blockBuffer := [], index := [], firstKey := [],
    entryCount := 0, totalKeys := 0, bloomFilter := none, bitsPerKey := bitsPerKey }

/-- `SSTableWriter.flushBlock`: emit the buffered block followed by its
CRC, record the index entry, and reset the block accumulator. -/
def SSTableWriter.flushBlock (w : SSTableWriter) : SSTableWriter :=
  if w.entryCount = 0 then w
  else
    { w with
      index := w.index ++ [(w.firstKey, w.offset, w.blockBuffer.length + 4)],
      out := w.out ++ (w.blockBuffer ++ leBytes 4 (crc32 w.blockBuffer)),
      offset := w.offset + (w.blockBuffer.length + 4),
      blockBuffer := [],
      firstKey := [],
      entryCount := 0 }

/-- The Bloom-filter update inside `SSTableWriter.Add`: skipped when
`bitsPerKey = 0`, created lazily (with an estimate of 1000 keys) on the
first call, then fed the key. -/
def addBloom (w : SSTableWriter) (key : List Nat) : Option BloomFilter :=
  if 0 < w.bitsPerKey then
    match w.bloomFilter with
    | none => some ((NewBloomFilter 1000 w.bitsPerKey).Add key)
    | some bf => some (bf.Add key)
  else w.bloomFilter

/-- The state after the unconditional part of `SSTableWriter.Add`: count
the key, feed the Bloom filter, remember the block's first key when the
block is empty, append the encoded entry.  The Go statements update these
independent fields in sequence; this record update is their composite. -/
def addStep (w : SSTableWriter) (e : TableEntry) : SSTableWriter :=
  { w with totalKeys := w.totalKeys + 1,
           bloomFilter := addBloom w e.key,
           firstKey := if w.entryCount = 0 then e.key else w.firstKey,
           blockBuffer := w.blockBuffer ++ encEntry e,
           entryCount := w.entryCount + 1 }

/-- `SSTableWriter.Add`: perform `addStep`, then flush once the buffer
reaches `BlockSize`. -/
def SSTableWriter.Add (w : SSTableWriter) (e : TableEntry) : SSTableWriter :=
  if BlockSize ≤ (addStep w e).blockBuffer.length then (addStep w e).flushBlock
  else addStep w e

/-- One index entry as `Finish` encodes it:
`[keyLen:4][key][offset:8][size:8]`. -/
def encIndexEntry (ent : List Nat × Nat × Nat) : List Nat :=
  leBytes 4 ent.1.length ++ (ent.1 ++ (leBytes 8 ent.2.1 ++ leBytes 8 ent.2.2))

/-- The index block: `[numEntries:4]` followed by the encoded entries. -/
def indexBytes (idx : List (List Nat × Nat × Nat)) : List Nat :=
  leBytes 4 idx.length ++ (idx.map encIndexEntry).flatten

/-- `SSTableWriter.Finish`: flush the pending block, then write the index
block, the Bloom filter block (if any) and the footer
`[indexOffset:8][indexSize:8][bloomOffset:8][bloomSize:8][magic:8]`;
returns the complete file bytes. -/
def SSTableWriter.Finish (w : SSTableWriter) : List Nat :=
  w.flushBlock.out ++ (indexBytes w.flushBlock.index ++
    ((match w.flushBlock.bloomFilter with
      | some bf => bf.Encode
      | none => []) ++
     (leBytes 8 w.flushBlock.offset ++
      (leBytes 8 (indexBytes w.flushBlock.index).length ++
       (leBytes 8 (w.flushBlock.offset + (indexBytes w.flushBlock.index).length) ++
        (leBytes 8 (match w.flushBlock.bloomFilter with
                    | some bf => bf.Encode
                    | none => []).length ++
         leBytes 8 SSTableMagic))))))

/-- The chunking of an entry stream into data blocks performed by repeated
`Add` (flush once the accumulated encoding reaches `BlockSize`) followed by
the final `flushBlock` in `Finish`; `pending` is the currently buffered
block. -/
def chunkEntries : List TableEntry → List TableEntry → List (List TableEntry)
  | [], pending => if pending.length = 0 then [] else [pending]
  | e :: es, pending =>
    if BlockSize ≤ (blockBytes (pending ++ [e])).length then
      (pending ++ [e]) :: chunkEntries es []
    else chunkEntries es (pending ++ [e])

/-- The blocks closed during the `Add` phase alone. -/
def chunksClosed : List TableEntry → List TableEntry → List (List TableEntry)
  | [], _ => []
  | e :: es, pending =>
    if BlockSize ≤ (blockBytes (pending ++ [e])).length then
      (pending ++ [e]) :: chunksClosed es []
    else chunksClosed es (pending ++ [e])

/-- The block still buffered after the `Add` phase. -/
def pendingAfter : List TableEntry → List TableEntry → List TableEntry
  | [], pending => pending
  | e :: es, pending =>
    if BlockSize ≤ (blockBytes (pending ++ [e])).length then pendingAfter es []
    else pendingAfter es (pending ++ [e])

/-- `SSTableReader` state: the file bytes, the parsed index and the decoded
Bloom filter. -/
structure SSTableReader where
  file : List Nat
  index : List (List Nat × Nat × Nat)
  bloomFilter : Option BloomFilter

/-- The index-entry parsing loop of `readIndex`, counted by the declared
entry count.  A partial `reader.Read(key)` in Go silently zero-pads the key
and only the following 8-byte read fails; the model truncates instead —
identical behaviour on every index the writer produces. -/
def parseIndexEntries : Nat → List Nat → Option (List (List Nat × Nat × Nat))
  | 0, _ => some []
  | n + 1, bs =>
    if bs.length < 4 then none
    else if ((bs.drop 4).drop (leVal (bs.take 4))).length < 8 then none
    else if (((bs.drop 4).drop (leVal (bs.take 4))).drop 8).length < 8 then none
    else
      match parseIndexEntries n ((((bs.drop 4).drop (leVal (bs.take 4))).drop 8).drop 8) with
      | none => none
      | some rest =>
        some (((bs.drop 4).take (leVal (bs.take 4)),
               leVal (((bs.drop 4).drop (leVal (bs.take 4))).take 8),
               leVal ((((bs.drop 4).drop (leVal (bs.take 4))).drop 8).take 8)) :: rest)

/-- `readIndex`: read the index block at the given extent and parse it. -/
def readIndex (file : List Nat) (indexOffset indexSize : Nat) :
    Option (List (List Nat × Nat × Nat)) :=
  if ((file.drop indexOffset).take indexSize).length < 4 then none
  else parseIndexEntries (leVal (((file.drop indexOffset).take indexSize).take 4))
    (((file.drop indexOffset).take indexSize).drop 4)

/-- The old 24-byte footer format (`[indexOffset:8][indexSize:8][magic:8]`),
kept for backward compatibility. -/
def openOldFormat (file : List Nat) : Option SSTableReader :=
  if file.length < 24 then none
  else if leVal (((file.drop (file.length - 24)).drop 16).take 8) ≠ SSTableMagic then none
  else
    match readIndex file (leVal ((file.drop (file.length - 24)).take 8))
        (leVal (((file.drop (file.length - 24)).drop 8).take 8)) with
    | none => none
    | some idx => some { file := file, index := idx, bloomFilter := none }

/-- `OpenSSTable` / `readFooter`: try the 40-byte footer
`[indexOffset:8][indexSize:8][bloomOffset:8][bloomSize:8][magic:8]` first,
decode the Bloom filter when `bloomSize > 0`, parse the index; otherwise
fall back to the old format. -/
def OpenSSTable (file : List Nat) : Option SSTableReader :=
  if 40 ≤ file.length ∧
      leVal (((file.drop (file.length - 40)).drop 32).take 8) = SSTableMagic then
    if 0 < leVal (((file.drop (file.length - 40)).drop 24).take 8) then
      match DecodeBloomFilter
          ((file.drop (leVal (((file.drop (file.length - 40)).drop 16).take 8))).take
            (leVal (((file.drop (file.length - 40)).drop 24).take 8))) with
      | .error _ => none
      | .ok bf =>
        match readIndex file (leVal ((file.drop (file.length - 40)).take 8))
            (leVal (((file.drop (file.length - 40)).drop 8).take 8)) with
        | none => none
        | some idx => some { file := file, index := idx, bloomFilter := some bf }
    else
      match readIndex file (leVal ((file.drop (file.length - 40)).take 8))
          (leVal (((file.drop (file.length - 40)).drop 8).take 8)) with
      | none => none
      | some idx => some { file := file, index := idx, bloomFilter := none }
  else openOldFormat file

/-- `sort.Search`: binary search for the least index in `[0, n)` where `f`
is true (assuming `f` monotone), returning `n` when there is none.  The
fuel argument only bounds the loop; `n` units always suffice since the
interval shrinks every iteration. -/
def sortSearchAux (f : Nat → Bool) : Nat → Nat → Nat → Nat
  | 0, i, _ => i
  | fuel + 1, i, j =>
    if i < j then
      if ¬ f ((i + j) / 2) then sortSearchAux f fuel ((i + j) / 2 + 1) j
      else sortSearchAux f fuel i ((i + j) / 2)
    else i

/-- `sort.Search n f`. -/
def sortSearch (n : Nat) (f : Nat → Bool) : Nat :=
  sortSearchAux f n 0 n

/-- `findBlock`: binary-search the index for the last block whose first key
is `≤ key`; `none` models Go's `-1`. -/
def SSTableReader.findBlock (r : SSTableReader) (key : List Nat) : Option Nat :=
  if r.index.length = 0 then none
  else if sortSearch r.index.length
      (fun i => compareBytes (r.index.getD i ([], 0, 0)).1 key > 0) = 0 then none
  else some (sortSearch r.index.length
      (fun i => compareBytes (r.index.getD i ([], 0, 0)).1 key > 0) - 1)

/-- The entry scan of `searchBlock` over a block's data bytes.  One entry is
consumed per step (at least 9 bytes), so fuel `≥ length` suffices.  As in
`parseIndexEntries`, Go's partial `reader.Read` zero-pads where the model
truncates — the two agree on every block the writer produces. -/
def searchEntries : Nat → List Nat → List Nat → List Nat × Bool × Bool
  | 0, _, _ => ([], false, false)
  | fuel + 1, bs, key =>
    if bs.length = 0 then ([], false, false)
    else if bs.length < 9 then ([], false, false)
    else if 0 < leVal (bs.take 4) ∧ (bs.drop 9).length = 0 then ([], false, false)
    else if 0 < leVal ((bs.drop 4).take 4) ∧
        ((bs.drop 9).drop (leVal (bs.take 4))).length = 0 then ([], false, false)
    else if compareBytes ((bs.drop 9).take (leVal (bs.take 4))) key = 0 then
      (((bs.drop 9).drop (leVal (bs.take 4))).take (leVal ((bs.drop 4).take 4)),
        bs.getD 8 0 == 1, true)
    else if compareBytes ((bs.drop 9).take (leVal (bs.take 4))) key > 0 then
      ([], false, false)
    else searchEntries fuel
      (((bs.drop 9).drop (leVal (bs.take 4))).drop (leVal ((bs.drop 4).take 4))) key

/-- `searchBlock`: read the block at index entry `bIdx`, verify its CRC and
scan its entries.  A block smaller than its 4-byte CRC would make Go panic
on slicing; the model reports not-found (no written file has one). -/
def SSTableReader.searchBlock (r : SSTableReader) (bIdx : Nat) (key : List Nat) :
    List Nat × Bool × Bool :=
  if (r.file.drop (r.index.getD bIdx ([], 0, 0)).2.1).length <
      (r.index.getD bIdx ([], 0, 0)).2.2 then ([], false, false)
  else if (r.index.getD bIdx ([], 0, 0)).2.2 < 4 then ([], false, false)
  else if crc32 (((r.file.drop (r.index.getD bIdx ([], 0, 0)).2.1).take
        (r.index.getD bIdx ([], 0, 0)).2.2).take ((r.index.getD bIdx ([], 0, 0)).2.2 - 4)) ≠
      leVal ((((r.file.drop (r.index.getD bIdx ([], 0, 0)).2.1).take
        (r.index.getD bIdx ([], 0, 0)).2.2).drop ((r.index.getD bIdx ([], 0, 0)).2.2 - 4)).take 4)
    then ([], false, false)
  else searchEntries (r.index.getD bIdx ([], 0, 0)).2.2
    (((r.file.drop (r.index.getD bIdx ([], 0, 0)).2.1).take
      (r.index.getD bIdx ([], 0, 0)).2.2).take ((r.index.getD bIdx ([], 0, 0)).2.2 - 4)) key

/-- `SSTableReader.Get`: find the candidate block, then scan it.  Returns
`(value, deleted, found)`. -/
def SSTableReader.Get (r : SSTableReader) (key : List Nat) : List Nat × Bool × Bool :=
  match r.findBlock key with
  | none => ([], false, false)
  | some b => r.searchBlock b key

/-- `SSTableIterator` state: current block index (Go `int`, `-1` before the
first block), the unread remainder of the current block's data (Go's
`blockReader`; `none` when nil), the current entry and the validity flag. -/
structure SSTableIterator where
  blockIdx : Int
  blockRest : Option (List Nat)
  key : List Nat
  value : List Nat
  deleted : Bool
  valid : Bool

/-- `loadBlock`: read and CRC-check the block at `bIdx`, returning its data
bytes (without the CRC). -/
def loadBlock (r : SSTableReader) (bIdx : Int) : Option (List Nat) :=
  if bIdx < (r.index.length : Int) ∧ 0 ≤ bIdx then
    if (r.file.drop (r.index.getD bIdx.toNat ([], 0, 0)).2.1).length <
        (r.index.getD bIdx.toNat ([], 0, 0)).2.2 then none
    else if (r.index.getD bIdx.toNat ([], 0, 0)).2.2 < 4 then none
    else if crc32 (((r.file.drop (r.index.getD bIdx.toNat ([], 0, 0)).2.1).take
          (r.index.getD bIdx.toNat ([], 0, 0)).2.2).take
            ((r.index.getD bIdx.toNat ([], 0, 0)).2.2 - 4)) ≠
        leVal ((((r.file.drop (r.index.getD bIdx.toNat ([], 0, 0)).2.1).take
          (r.index.getD bIdx.toNat ([], 0, 0)).2.2).drop
            ((r.index.getD bIdx.toNat ([], 0, 0)).2.2 - 4)).take 4) then none
    else some (((r.file.drop (r.index.getD bIdx.toNat ([], 0, 0)).2.1).take
      (r.index.getD bIdx.toNat ([], 0, 0)).2.2).take ((r.index.getD bIdx.toNat ([], 0, 0)).2.2 - 4))
  else none

/-- Read one entry from the current block remainder (the entry-reading part
of `SSTableIterator.Next`). -/
def itReadEntry (st : SSTableIterator) (bs : List Nat) : SSTableIterator :=
  if bs.length < 9 then { st with valid := false }
  else if 0 < leVal (bs.take 4) ∧ (bs.drop 9).length = 0 then { st with valid := false }
  else if 0 < leVal ((bs.drop 4).take 4) ∧
      ((bs.drop 9).drop (leVal (bs.take 4))).length = 0 then { st with valid := false }
  else
    { st with
      key := (bs.drop 9).take (leVal (bs.take 4)),
      value := ((bs.drop 9).drop (leVal (bs.take 4))).take (leVal ((bs.drop 4).take 4)),
      deleted := bs.getD 8 0 == 1,
      blockRest := some (((bs.drop 9).drop (leVal (bs.take 4))).drop
        (leVal ((bs.drop 4).take 4))),
      valid := true }

/-- `SSTableIterator.Next`: advance to the next block when the current one
is exhausted (or none is loaded), then read one entry.  Every control path
of the Go loop returns within its first iteration. -/
def itNext (r : SSTableReader) (st : SSTableIterator) : SSTableIterator :=
  match st.blockRest with
  | none =>
    (match loadBlock r (st.blockIdx + 1) with
     | none => { st with blockIdx := st.blockIdx + 1, valid := false }
     | some bs =>
       itReadEntry { st with blockIdx := st.blockIdx + 1, blockRest := some bs } bs)
  | some cur =>
    if cur.length = 0 then
      (match loadBlock r (st.blockIdx + 1) with
       | none => { st with blockIdx := st.blockIdx + 1, valid := false }
       | some bs =>
         itReadEntry { st with blockIdx := st.blockIdx + 1, blockRest := some bs } bs)
    else itReadEntry st cur

/-- The iterator state `SeekToFirst` prepares before its call to `Next`. -/
def itInit : SSTableIterator :=
  { blockIdx := -1, blockRest := none, key := [], value := [], deleted := false,
    valid := false }

/-- Collect the entries of `for it.SeekToFirst(); it.Valid(); it.Next()`. -/
def itCollect (r : SSTableReader) : Nat → SSTableIterator → List TableEntry
  | 0, _ => []
  | fuel + 1, st =>
    if st.valid then
      { key := st.key, value := st.value, deleted := st.deleted } ::
        itCollect r fuel (itNext r st)
    else []

/-- The full iteration from `SeekToFirst`. -/
def sstIterate (r : SSTableReader) (fuel : Nat) : List TableEntry :=
  itCollect r fuel (itNext r itInit)

/-- The Bloom-filter block `Finish` writes: the encoded filter, or nothing. -/
def bloomBlock : Option BloomFilter → List Nat
  | some bf => bf.Encode
  | none => []

/-- The 40-byte footer for the given data/index/bloom block lengths:
`[indexOffset:8][indexSize:8][bloomOffset:8][bloomSize:8][magic:8]`. -/
def footerBytes (flen ilen blen : Nat) : List Nat :=
  leBytes 8 flen ++ (leBytes 8 ilen ++ (leBytes 8 (flen + ilen) ++
    (leBytes 8 blen ++ leBytes 8 SSTableMagic)))

/-- The layout of a finished SSTable file holding the data blocks `Cs` and
the Bloom filter `ob`: data blocks, index block, Bloom block, footer. -/
def sstFileBytes (Cs : List (List TableEntry)) (ob : Option BloomFilter) : List Nat :=
  outBytes Cs ++ (indexBytes (indexOfBlocks Cs 0) ++
    (bloomBlock ob ++
     (leBytes 8 (outBytes Cs).length ++
      (leBytes 8 (indexBytes (indexOfBlocks Cs 0)).length ++
       (leBytes 8 ((outBytes Cs).length + (indexBytes (indexOfBlocks Cs 0)).length) ++
        (leBytes 8 (bloomBlock ob).length ++ leBytes 8 SSTableMagic))))))

/-- Witness input for the table round trip: two strictly increasing keys,
the second entry a tombstone. -/
def wEs : List TableEntry :=
  [{ key := [1], value := [10], deleted := false },
   { key := [2], value := [], deleted := true }]

/-! # Theorems -/

@[simp] theorem leBytes_length (w n : Nat) : (leBytes w n).length = w := by
  induction w generalizing n with
  | zero => rfl
  | succ w ih => simp [leBytes, ih]

theorem leVal_leBytes (w n : Nat) : leVal (leBytes w n) = n % 256 ^ w := by
  induction w generalizing n with
  | zero => simp [leBytes, leVal, Nat.mod_one]
  | succ w ih =>
    have h1 : n % (256 * 256 ^ w) / 256 = n / 256 % 256 ^ w :=
      Nat.mod_mul_right_div_self n 256 (256 ^ w)
    have h2 : n % (256 * 256 ^ w) % 256 = n % 256 :=
      Nat.mod_mod_of_dvd n ⟨256 ^ w, rfl⟩
    have h3 := Nat.div_add_mod (n % (256 * 256 ^ w)) 256
    simp only [leBytes, leVal, ih]
    rw [pow_succ, mul_comm (256 ^ w) 256]
    omega

theorem leVal_leBytes_of_lt {w n : Nat} (h : n < 256 ^ w) :
    leVal (leBytes w n) = n := by
  rw [leVal_leBytes, Nat.mod_eq_of_lt h]

theorem take_length_append (xs ys : List Nat) : (xs ++ ys).take xs.length = xs := by
  simp

theorem drop_length_append (xs ys : List Nat) : (xs ++ ys).drop xs.length = ys := by
  simp

theorem take_append_of_eq_length {n : Nat} (xs ys : List Nat) (h : xs.length = n) :
    (xs ++ ys).take n = xs := by
  subst h; simp

theorem drop_append_of_eq_length {n : Nat} (xs ys : List Nat) (h : xs.length = n) :
    (xs ++ ys).drop n = ys := by
  subst h; simp

theorem compareBytes_self (a : List Nat) : compareBytes a a = 0 := by
  induction a with
  | nil => rfl
  | cons x xs ih => simp [compareBytes, ih]

theorem compareBytes_eq_zero_iff {a b : List Nat} : compareBytes a b = 0 ↔ a = b := by
  constructor
  · intro h
    induction a generalizing b with
    | nil => cases b with
      | nil => rfl
      | cons y ys => simp [compareBytes] at h
    | cons x xs ih =>
      cases b with
      | nil => simp [compareBytes] at h
      | cons y ys =>
        simp only [compareBytes] at h
        by_cases h1 : x < y
        · simp [h1] at h
        by_cases h2 : y < x
        · simp [h1, h2] at h
        have hxy : x = y := by omega
        subst hxy
        rw [if_neg h1, if_neg h2] at h
        simp [ih h]
  · rintro rfl; exact compareBytes_self a

theorem compareBytes_ne_zero_of_ne {a b : List Nat} (h : a ≠ b) : compareBytes a b ≠ 0 :=
  fun hc => h (compareBytes_eq_zero_iff.mp hc)

theorem compareBytes_lt_trans {a b c : List Nat}
    (h1 : compareBytes a b = -1) (h2 : compareBytes b c = -1) :
    compareBytes a c = -1 := by
  induction a generalizing b c with
  | nil =>
    cases c with
    | nil =>
      cases b with
      | nil => simp [compareBytes] at h1
      | cons y ys => simp [compareBytes] at h2
    | cons z zs => rfl
  | cons x xs ih =>
    cases b with
    | nil => simp [compareBytes] at h1
    | cons y ys =>
      cases c with
      | nil => simp [compareBytes] at h2
      | cons z zs =>
        simp only [compareBytes] at h1 h2 ⊢
        by_cases hxy : x < y
        · by_cases hyz : y < z
          · simp [Nat.lt_trans hxy hyz]
          by_cases hzy : z < y
          · simp [hyz, hzy] at h2
          have : y = z := by omega
          subst this; simp [hxy]
        by_cases hyx : y < x
        · simp [hxy, hyx] at h1
        have hexy : x = y := by omega
        subst hexy
        rw [if_neg hxy, if_neg hyx] at h1
        by_cases hyz : x < z
        · simp [hyz]
        by_cases hzy : z < x
        · simp [hyz, hzy] at h2
        have : x = z := by omega
        subst this
        simp only [if_neg hyz] at h2 ⊢
        exact ih h1 h2

theorem compareBytes_gt_of_lt {a b : List Nat} (h : compareBytes a b = -1) :
    compareBytes b a = 1 := by
  induction a generalizing b with
  | nil =>
    cases b with
    | nil => simp [compareBytes] at h
    | cons y ys => rfl
  | cons x xs ih =>
    cases b with
    | nil => simp [compareBytes] at h
    | cons y ys =>
      simp only [compareBytes] at h ⊢
      by_cases hxy : x < y
      · simp [hxy, Nat.lt_asymm hxy]
      by_cases hyx : y < x
      · simp [hxy, hyx] at h
      rw [if_neg hxy, if_neg hyx] at h
      rw [if_neg hyx, if_neg hxy]
      exact ih h

theorem crc32_lt (bs : List Nat) : crc32 bs < 2 ^ 32 :=
  Nat.mod_lt _ (by norm_num)

/-! ## Skip-list level selection (`randomLevel`) -/

theorem levelLoopAux_ge (fuel : Nat) : ∀ level r, level ≤ levelLoopAux fuel level r := by
  induction fuel with
  | zero => intro level r; simp [levelLoopAux]
  | succ fuel ih =>
    intro level r
    simp only [levelLoopAux]
    split
    · exact Nat.le_trans (Nat.le_succ level) (ih (level + 1) (r / probability))
    · exact Nat.le_refl level

theorem levelLoopAux_le (fuel : Nat) :
    ∀ level r, level ≤ maxLevel → levelLoopAux fuel level r ≤ maxLevel := by
  induction fuel with
  | zero => intro level r h; simpa [levelLoopAux] using h
  | succ fuel ih =>
    intro level r h
    simp only [levelLoopAux]
    split
    case isTrue hc => exact ih (level + 1) (r / probability) hc.1
    case isFalse => exact h

theorem levelLoopAux_dvd (fuel : Nat) :
    ∀ level r, probability ^ (levelLoopAux fuel level r - level) ∣ r := by
  induction fuel with
  | zero => intro level r; simp [levelLoopAux]
  | succ fuel ih =>
    intro level r
    simp only [levelLoopAux]
    split
    case isTrue hc =>
      have hge := levelLoopAux_ge fuel (level + 1) (r / probability)
      have hpd : probability ∣ r := Nat.dvd_of_mod_eq_zero hc.2
      have hd := ih (level + 1) (r / probability)
      have hstep : probability * probability ^
          (levelLoopAux fuel (level + 1) (r / probability) - (level + 1)) ∣ r :=
        (Nat.dvd_div_iff_mul_dvd hpd).mp hd
      rw [← pow_succ'] at hstep
      convert hstep using 2
      omega
    case isFalse => simp

theorem levelLoopAux_not_dvd (fuel : Nat) :
    ∀ level r, maxLevel - level ≤ fuel → levelLoopAux fuel level r < maxLevel →
      ¬ probability ^ (levelLoopAux fuel level r - level + 1) ∣ r := by
  induction fuel with
  | zero =>
    intro level r hfuel hlt
    simp only [levelLoopAux] at hlt
    omega
  | succ fuel ih =>
    intro level r hfuel hlt
    simp only [levelLoopAux] at hlt ⊢
    split at hlt
    case isTrue hc =>
      rw [if_pos hc]
      have hge := levelLoopAux_ge fuel (level + 1) (r / probability)
      have hpd : probability ∣ r := Nat.dvd_of_mod_eq_zero hc.2
      have hih := ih (level + 1) (r / probability) (by omega) hlt
      intro hdvd
      apply hih
      refine (Nat.dvd_div_iff_mul_dvd hpd).mpr ?_
      rw [← pow_succ']
      convert hdvd using 2
      omega
    case isFalse hc =>
      rw [if_neg hc]
      have hm : ¬ r % probability = 0 := by
        intro h0
        exact hc ⟨hlt, h0⟩
      simp only [Nat.sub_self, pow_one, zero_add]
      intro hdvd
      exact hm (Nat.dvd_iff_mod_eq_zero.mp hdvd)

/-! ## Memtable size accounting (`PutEntry`) -/

theorem putEntry_size_none {sl : SkipList} {e : Entry}
    (h : slFind sl.nodes e.Key = none) :
    (sl.PutEntry e).size = sl.size + e.Size := by
  simp [SkipList.PutEntry, h]

theorem putEntry_size_some {sl : SkipList} {e old : Entry}
    (h : slFind sl.nodes e.Key = some old) :
    (sl.PutEntry e).size = sl.size + (e.Size - old.Size) := by
  simp [SkipList.PutEntry, h]

theorem entry_size_nonneg (e : Entry) : 0 ≤ e.Size := by
  unfold Entry.Size
  have h1 : (0 : Int) ≤ e.Key.length := Int.natCast_nonneg _
  have h2 : (0 : Int) ≤ e.Value.length := Int.natCast_nonneg _
  omega

/-- C9: skip-list level selection is a deterministic per-list 32-bit LCG.
The seed starts at the constant `0xDEADBEEF`; each draw steps the seed
exactly once by `s' = s*1664525 + 1013904223 (mod 2^32)`; the chosen level
starts at 1, is promoted while the (successively divided) seed is divisible
by 4, and is capped at `maxLevel = 12`.  Since `randomLevel` is a pure
function of the seed, a fixed insertion sequence always produces the same
list shape. -/
theorem randomLevel_lcg_spec (s : Nat) :
    NewSkipList.randSeed = 0xDEADBEEF ∧
    (randomLevel s).2 = (s * 1664525 + 1013904223) % 2 ^ 32 ∧
    1 ≤ (randomLevel s).1 ∧ (randomLevel s).1 ≤ maxLevel ∧
    probability ^ ((randomLevel s).1 - 1) ∣ (randomLevel s).2 ∧
    ((randomLevel s).1 < maxLevel →
      ¬ probability ^ (randomLevel s).1 ∣ (randomLevel s).2) := by
  refine ⟨rfl, rfl, ?_, ?_, ?_, ?_⟩
  · simp only [randomLevel, levelLoop]
    exact levelLoopAux_ge maxLevel 1 _
  · simp only [randomLevel, levelLoop]
    exact levelLoopAux_le maxLevel 1 _ (by norm_num [maxLevel])
  · simp only [randomLevel, levelLoop]
    exact levelLoopAux_dvd maxLevel 1 _
  · simp only [randomLevel, levelLoop]
    intro hlt
    have h := levelLoopAux_not_dvd maxLevel 1 ((s * 1664525 + 1013904223) % 2 ^ 32)
      (by norm_num [maxLevel]) hlt
    have hge := levelLoopAux_ge maxLevel 1 ((s * 1664525 + 1013904223) % 2 ^ 32)
    have hexp : levelLoopAux maxLevel 1 ((s * 1664525 + 1013904223) % 2 ^ 32) - 1 + 1 =
        levelLoopAux maxLevel 1 ((s * 1664525 + 1013904223) % 2 ^ 32) := by
      omega
    rw [hexp] at h
    exact h

/-- Witness for C9 at seed 0: the drawn level is 1 < 12, and indeed the
stepped seed is not divisible by 4. -/
theorem randomLevel_lcg_spec_witness :
    ¬ probability ^ (randomLevel 0).1 ∣ (randomLevel 0).2 :=
  (randomLevel_lcg_spec 0).2.2.2.2.2 (by decide)

/-- C7 counterexample: on an active memtable, `Put "a" "vv"` followed by
`Delete "a"` are both successful writes, yet the second strictly decreases
`Size` (the tombstone is smaller than the entry it replaces), refuting
monotonicity of `Size` across every successful Put and Delete. -/
theorem memtable_size_not_monotone_cex :
    ((NewMemtable 1024).Put [97] [118, 118]).1 = Except.ok () ∧
    (((NewMemtable 1024).Put [97] [118, 118]).2.Delete [97]).1 = Except.ok () ∧
    (((NewMemtable 1024).Put [97] [118, 118]).2.Delete [97]).2.Size
      < ((NewMemtable 1024).Put [97] [118, 118]).2.Size := by
  refine ⟨rfl, rfl, ?_⟩
  decide

/-- C7 amended: each successful Put/Delete on an active memtable changes
`Size` by exactly (new entry size − replaced entry size) when the key is
present, and by +(new entry size) when absent; hence `Size` is monotone
non-decreasing across writes of keys not already present (and in general
only when the new entry is at least as large as the one it replaces). -/
theorem memtable_size_change (m : Memtable) (k v : List Nat)
    (ha : m.state = memtableActive) :
    ((m.Put k v).1 = Except.ok () ∧ (m.Delete k).1 = Except.ok ()) ∧
    (slFind m.data.nodes k = none →
      (m.Put k v).2.Size = m.Size + (NewEntry k v).Size ∧
      (m.Delete k).2.Size = m.Size + (NewTombstone k).Size ∧
      m.Size ≤ (m.Put k v).2.Size ∧ m.Size ≤ (m.Delete k).2.Size) ∧
    (∀ old, slFind m.data.nodes k = some old →
      (m.Put k v).2.Size = m.Size + ((NewEntry k v).Size - old.Size) ∧
      (m.Delete k).2.Size = m.Size + ((NewTombstone k).Size - old.Size)) := by
  have hput : m.Put k v = (.ok (), { m with data := m.data.Put k v }) := by
    simp [Memtable.Put, ha, memtableActive]
  have hdel : m.Delete k = (.ok (), { m with data := m.data.Delete k }) := by
    simp [Memtable.Delete, ha, memtableActive]
  refine ⟨⟨by rw [hput], by rw [hdel]⟩, ?_, ?_⟩
  · intro hnone
    rw [hput, hdel]
    have h1 : (m.data.Put k v).size = m.data.size + (NewEntry k v).Size :=
      putEntry_size_none (by simpa [NewEntry] using hnone)
    have h2 : (m.data.Delete k).size = m.data.size + (NewTombstone k).Size :=
      putEntry_size_none (by simpa [NewTombstone] using hnone)
    have h3 := entry_size_nonneg (NewEntry k v)
    have h4 := entry_size_nonneg (NewTombstone k)
    simp only [Memtable.Size] at *
    refine ⟨h1, h2, ?_, ?_⟩ <;> omega
  · intro old hsome
    rw [hput, hdel]
    have h1 : (m.data.Put k v).size = m.data.size + ((NewEntry k v).Size - old.Size) :=
      putEntry_size_some (by simpa [NewEntry] using hsome)
    have h2 : (m.data.Delete k).size = m.data.size + ((NewTombstone k).Size - old.Size) :=
      putEntry_size_some (by simpa [NewTombstone] using hsome)
    exact ⟨h1, h2⟩

/-- Witness for C7's amended claim on a concrete fresh memtable: the key is
absent, the write succeeds and `Size` does not decrease. -/
theorem memtable_size_change_witness :
    ((NewMemtable 64).Put [107] [119]).1 = Except.ok () ∧
    (NewMemtable 64).Size ≤ ((NewMemtable 64).Put [107] [119]).2.Size :=
  ⟨(memtable_size_change (NewMemtable 64) [107] [119] rfl).1.1,
   ((memtable_size_change (NewMemtable 64) [107] [119] rfl).2.1 rfl).2.2.1⟩

/-! ## Bloom filter bit-level lemmas -/

theorem setBit_fields (bf : BloomFilter) (idx : Nat) :
    (bf.setBit idx).numBits = bf.numBits ∧ (bf.setBit idx).numHash = bf.numHash ∧
    (bf.setBit idx).numItems = bf.numItems ∧
    (bf.setBit idx).bits.length = bf.bits.length := by
  refine ⟨rfl, rfl, rfl, ?_⟩
  simp [BloomFilter.setBit]

theorem getBit_setBit_self {bf : BloomFilter} {idx : Nat}
    (h : idx / 8 < bf.bits.length) :
    (bf.setBit idx).getBit idx = true := by
  unfold BloomFilter.setBit BloomFilter.getBit
  simp only
  rw [List.getD_eq_getElem _ _ (by simpa using h), List.getElem_set_self]
  rw [Nat.one_shiftLeft, Nat.and_two_pow]
  have hbit : (bf.bits.getD (idx / 8) 0 ||| 2 ^ (idx % 8)).testBit (idx % 8) = true := by
    rw [Nat.testBit_lor, Nat.testBit_two_pow_self]
    simp
  rw [hbit]
  simp

theorem getBit_setBit_mono {bf : BloomFilter} {i j : Nat}
    (h : bf.getBit j = true) : (bf.setBit i).getBit j = true := by
  unfold BloomFilter.getBit at h ⊢
  unfold BloomFilter.setBit
  simp only
  by_cases heq : i / 8 = j / 8
  · by_cases hlt : i / 8 < bf.bits.length
    · rw [← heq] at h ⊢
      rw [List.getD_eq_getElem _ _ (by simpa using hlt), List.getElem_set_self]
      simp only [Nat.one_shiftLeft] at h ⊢
      rw [Nat.and_two_pow] at h
      rw [Nat.and_two_pow, Nat.testBit_lor]
      have hb : (bf.bits.getD (i / 8) 0).testBit (j % 8) = true := by
        by_contra hc
        rw [Bool.not_eq_true] at hc
        rw [hc] at h
        simp at h
      rw [hb]
      simp
    · rw [List.set_eq_of_length_le (by omega)]
      exact h
  · have hget : (bf.bits.set (i / 8) (bf.bits.getD (i / 8) 0 ||| 1 <<< (i % 8))).getD (j / 8) 0
        = bf.bits.getD (j / 8) 0 := by
      simp [List.getD, List.getElem?_set_ne heq]
    rw [hget]
    exact h

theorem getBit_numItems (bf : BloomFilter) (n j : Nat) :
    ({ bf with numItems := n } : BloomFilter).getBit j = bf.getBit j := rfl

theorem foldl_setBit_fields (g : BloomFilter → Nat → Nat) (l : List Nat) :
    ∀ bf : BloomFilter,
      ((l.foldl (fun b i => b.setBit (g b i)) bf).numBits = bf.numBits ∧
       (l.foldl (fun b i => b.setBit (g b i)) bf).numHash = bf.numHash ∧
       (l.foldl (fun b i => b.setBit (g b i)) bf).numItems = bf.numItems ∧
       (l.foldl (fun b i => b.setBit (g b i)) bf).bits.length = bf.bits.length) := by
  induction l with
  | nil => intro bf; exact ⟨rfl, rfl, rfl, rfl⟩
  | cons x xs ih =>
    intro bf
    have h := ih (bf.setBit (g bf x))
    have hf := setBit_fields bf (g bf x)
    simp only [List.foldl_cons]
    exact ⟨h.1.trans hf.1, h.2.1.trans hf.2.1, h.2.2.1.trans hf.2.2.1, h.2.2.2.trans hf.2.2.2⟩

theorem foldl_setBit_mono (g : BloomFilter → Nat → Nat) (l : List Nat) :
    ∀ (bf : BloomFilter) (j : Nat), bf.getBit j = true →
      (l.foldl (fun b i => b.setBit (g b i)) bf).getBit j = true := by
  induction l with
  | nil => intro bf j h; exact h
  | cons x xs ih =>
    intro bf j h
    simp only [List.foldl_cons]
    exact ih (bf.setBit (g bf x)) j (getBit_setBit_mono h)

theorem foldl_probe_sets (h1 h2 : Nat) (l : List Nat) :
    ∀ (bf : BloomFilter) (i : Nat), i ∈ l →
      bf.numBits = 8 * bf.bits.length → 0 < bf.numBits →
      (l.foldl (fun b j => b.setBit ((h1 + j * h2) % b.numBits)) bf).getBit
        ((h1 + i * h2) % bf.numBits) = true := by
  induction l with
  | nil => intro bf i hi; cases hi
  | cons x xs ih =>
    intro bf i hi hwf hpos
    simp only [List.foldl_cons]
    have hfields := setBit_fields bf ((h1 + x * h2) % bf.numBits)
    rcases List.mem_cons.mp hi with rfl | hmem
    · refine foldl_setBit_mono _ xs (bf.setBit ((h1 + i * h2) % bf.numBits)) _ ?_
      refine @getBit_setBit_self bf ((h1 + i * h2) % bf.numBits) ?_
      have hidx : (h1 + i * h2) % bf.numBits < bf.numBits := Nat.mod_lt _ hpos
      omega
    · have := ih (bf.setBit ((h1 + x * h2) % bf.numBits)) i hmem
        (by rw [hfields.1, hfields.2.2.2]; exact hwf) (by rw [hfields.1]; exact hpos)
      rw [hfields.1] at this
      exact this

/-! ## Bloom filter `Add` / `MayContain` -/

theorem add_fields (bf : BloomFilter) (key : List Nat) :
    (bf.Add key).numBits = bf.numBits ∧ (bf.Add key).numHash = bf.numHash ∧
    (bf.Add key).bits.length = bf.bits.length := by
  unfold BloomFilter.Add
  simp only
  have h := foldl_setBit_fields (fun b i => (((bfHash key).1 + i * (bfHash key).2) % b.numBits))
    (List.range bf.numHash) bf
  exact ⟨h.1, h.2.1, h.2.2.2⟩

theorem add_wf {bf : BloomFilter} (hwf : bf.WF) (key : List Nat) : (bf.Add key).WF := by
  obtain ⟨h1, h2, h3, h4, h5⟩ := hwf
  have hf := add_fields bf key
  refine ⟨?_, ?_, ?_, ?_, ?_⟩
  · rw [hf.1, hf.2.2, h1]
  · rw [hf.1]; exact h2
  · rw [hf.1]; exact h3
  · rw [hf.2.1]; exact h4
  · unfold BloomFilter.Add
    simp only
    exact Nat.mod_lt _ (by norm_num)

theorem mayContain_add_self {bf : BloomFilter} (key : List Nat)
    (hwf : bf.numBits = 8 * bf.bits.length) (hpos : 0 < bf.numBits) :
    (bf.Add key).MayContain key = true := by
  unfold BloomFilter.MayContain
  simp only [List.all_eq_true]
  intro i hi
  have hf := add_fields bf key
  rw [hf.2.1] at hi
  rw [hf.1]
  unfold BloomFilter.Add
  simp only [getBit_numItems]
  exact foldl_probe_sets (bfHash key).1 (bfHash key).2 (List.range bf.numHash) bf i
    (by simpa using hi) hwf hpos

theorem mayContain_add_mono {bf : BloomFilter} {key key2 : List Nat}
    (h : bf.MayContain key = true) : (bf.Add key2).MayContain key = true := by
  unfold BloomFilter.MayContain at h ⊢
  simp only [List.all_eq_true] at h ⊢
  intro i hi
  have hf := add_fields bf key2
  rw [hf.2.1] at hi
  rw [hf.1]
  unfold BloomFilter.Add
  simp only [getBit_numItems]
  exact foldl_setBit_mono _ (List.range bf.numHash) bf _ (h i hi)

theorem foldl_add_mono (keys : List (List Nat)) :
    ∀ (bf : BloomFilter) (k : List Nat), bf.MayContain k = true →
      (keys.foldl BloomFilter.Add bf).MayContain k = true := by
  induction keys with
  | nil => intro bf k h; exact h
  | cons x xs ih =>
    intro bf k h
    simp only [List.foldl_cons]
    exact ih (bf.Add x) k (mayContain_add_mono h)

theorem foldl_add_no_false_neg (keys : List (List Nat)) :
    ∀ (bf : BloomFilter) (k : List Nat), k ∈ keys →
      bf.numBits = 8 * bf.bits.length → 0 < bf.numBits →
      (keys.foldl BloomFilter.Add bf).MayContain k = true := by
  induction keys with
  | nil => intro bf k hk; cases hk
  | cons x xs ih =>
    intro bf k hk hwf hpos
    simp only [List.foldl_cons]
    have hf := add_fields bf x
    rcases List.mem_cons.mp hk with rfl | hmem
    · exact foldl_add_mono xs (bf.Add k) k (mayContain_add_self k hwf hpos)
    · exact ih (bf.Add x) k hmem (by rw [hf.1, hf.2.2, hwf]) (by rw [hf.1]; exact hpos)

theorem foldl_add_wf (keys : List (List Nat)) :
    ∀ bf : BloomFilter, bf.WF → (keys.foldl BloomFilter.Add bf).WF := by
  induction keys with
  | nil => intro bf h; exact h
  | cons x xs ih =>
    intro bf h
    simp only [List.foldl_cons]
    exact ih (bf.Add x) (add_wf h x)

theorem newBloomFilter_wf (items bpk : Nat) (hi : items ≤ 2 ^ 31) (hb : bpk ≤ 2 ^ 31) :
    (NewBloomFilter items bpk).WF := by
  simp only [NewBloomFilter, BloomFilter.WF, List.length_replicate]
  set A := (if items = 0 then 1 else items) with hA
  set B := (if bpk = 0 then 10 else bpk) with hB
  have h1 : A ≤ 2 ^ 31 := by rw [hA]; split_ifs <;> omega
  have h2 : B ≤ 2 ^ 31 := by rw [hB]; split_ifs <;> omega
  have hp : A * B ≤ 2 ^ 62 := le_trans (Nat.mul_le_mul h1 h2) (by norm_num)
  refine ⟨?_, ?_, ?_, ?_, ?_⟩ <;> (first | (split_ifs <;> omega) | omega)

/-! ## Bloom filter encode/decode round trip -/

theorem encode_decode_roundtrip {bf : BloomFilter} (hwf : bf.WF) :
    DecodeBloomFilter bf.Encode = .ok bf := by
  obtain ⟨h1, h2, h3, h4, h5⟩ := hwf
  have h256 : (256 : Nat) ^ 8 = 2 ^ 64 := by norm_num
  have h2564 : (256 : Nat) ^ 4 = 2 ^ 32 := by norm_num
  unfold BloomFilter.Encode DecodeBloomFilter
  have hassocR : leBytes 8 bf.numBits ++ leBytes 4 bf.numHash ++ leBytes 8 bf.numItems ++
      bf.bits = leBytes 8 bf.numBits ++ (leBytes 4 bf.numHash ++ (leBytes 8 bf.numItems ++
      bf.bits)) := by
    simp [List.append_assoc]
  rw [hassocR]
  have hlen : (leBytes 8 bf.numBits ++ (leBytes 4 bf.numHash ++ (leBytes 8 bf.numItems ++
      bf.bits))).length = 20 + bf.bits.length := by
    simp only [List.length_append, leBytes_length]
    omega
  have ht8 : (leBytes 8 bf.numBits ++ (leBytes 4 bf.numHash ++ (leBytes 8 bf.numItems ++
      bf.bits))).take 8 = leBytes 8 bf.numBits :=
    take_append_of_eq_length _ _ (by simp)
  have hd8 : (leBytes 8 bf.numBits ++ (leBytes 4 bf.numHash ++ (leBytes 8 bf.numItems ++
      bf.bits))).drop 8 = leBytes 4 bf.numHash ++ (leBytes 8 bf.numItems ++ bf.bits) :=
    drop_append_of_eq_length _ _ (by simp)
  have hassoc12 : leBytes 8 bf.numBits ++ (leBytes 4 bf.numHash ++ (leBytes 8 bf.numItems ++
      bf.bits)) = (leBytes 8 bf.numBits ++ leBytes 4 bf.numHash) ++
      (leBytes 8 bf.numItems ++ bf.bits) := by
    simp [List.append_assoc]
  have hd12 : (leBytes 8 bf.numBits ++ (leBytes 4 bf.numHash ++ (leBytes 8 bf.numItems ++
      bf.bits))).drop 12 = leBytes 8 bf.numItems ++ bf.bits := by
    rw [hassoc12]
    exact drop_append_of_eq_length _ _ (by simp)
  have hassoc20 : leBytes 8 bf.numBits ++ (leBytes 4 bf.numHash ++ (leBytes 8 bf.numItems ++
      bf.bits)) = ((leBytes 8 bf.numBits ++ leBytes 4 bf.numHash) ++ leBytes 8 bf.numItems) ++
      bf.bits := by
    simp [List.append_assoc]
  have hd20 : (leBytes 8 bf.numBits ++ (leBytes 4 bf.numHash ++ (leBytes 8 bf.numItems ++
      bf.bits))).drop 20 = bf.bits := by
    rw [hassoc20]
    exact drop_append_of_eq_length _ _ (by simp)
  rw [hlen, ht8, hd8, hd12, hd20]
  rw [leVal_leBytes_of_lt (by omega)]
  have hexp : ((bf.numBits + 7) % 2 ^ 64) / 8 = bf.bits.length := by omega
  rw [hexp]
  rw [if_neg (by omega), if_neg (by omega)]
  rw [take_append_of_eq_length _ _ (by simp), take_append_of_eq_length _ _ (by simp)]
  rw [leVal_leBytes_of_lt (by omega), leVal_leBytes_of_lt (by omega)]
  rw [List.take_length]

/-- C6: for every finite key sequence added through `Add` to a filter built
by `NewBloomFilter`, `MayContain` is true for each added key, and decoding
the filter's `Encode` output returns the identical filter (so the decoded
filter also reports every added key).  The size bounds keep the Go `int`
parameters in their realistic range, away from 64-bit wraparound. -/
theorem bloom_add_no_false_negatives (items bpk : Nat) (keys : List (List Nat))
    (k : List Nat) (hi : items ≤ 2 ^ 31) (hb : bpk ≤ 2 ^ 31) (hk : k ∈ keys) :
    (keys.foldl BloomFilter.Add (NewBloomFilter items bpk)).MayContain k = true ∧
    DecodeBloomFilter ((keys.foldl BloomFilter.Add (NewBloomFilter items bpk)).Encode)
      = .ok (keys.foldl BloomFilter.Add (NewBloomFilter items bpk)) := by
  have hwf := newBloomFilter_wf items bpk hi hb
  refine ⟨foldl_add_no_false_neg keys _ k hk hwf.1 hwf.2.1, ?_⟩
  exact encode_decode_roundtrip (foldl_add_wf keys _ hwf)

/-- Witness for C6 on a concrete filter with two added keys. -/
theorem bloom_add_no_false_negatives_witness :
    ([[104], [5]].foldl BloomFilter.Add (NewBloomFilter 1 10)).MayContain [104] = true ∧
    DecodeBloomFilter (([[104], [5]].foldl BloomFilter.Add (NewBloomFilter 1 10)).Encode)
      = .ok ([[104], [5]].foldl BloomFilter.Add (NewBloomFilter 1 10)) :=
  bloom_add_no_false_negatives 1 10 [[104], [5]] [104]
    (by norm_num) (by norm_num) (by simp)

/-- C8 counterexample: at `expectedItems = 100`, `bitsPerKey = 10` the code
computes `numHash = 6` (Go's `uint32(...)` conversion truncates
`10·ln 2 ≈ 6.93`), while the claim's `clamp(round(bitsPerKey·ln 2), 1, 30)`
is 7. -/
theorem newBloomFilter_numHash_cex :
    (NewBloomFilter 100 10).numHash = 6 ∧ specNumHashRounded 10 = 7 ∧
    (NewBloomFilter 100 10).numHash ≠ specNumHashRounded 10 := by
  refine ⟨?_, ?_, ?_⟩ <;> decide

/-- C8 amended: for positive parameters (with the product below the Go
`int64` range), `numBits` is `items * bitsPerKey` rounded up to a byte
multiple with a 64-bit minimum, and `numHash = clamp(trunc(bitsPerKey ·
ln 2), 1, 30)` — truncation, not rounding. -/
theorem newBloomFilter_params (items bpk : Nat) (hi : 0 < items) (hb : 0 < bpk)
    (hs : items * bpk < 2 ^ 63) :
    (NewBloomFilter items bpk).numBits = 8 * ((max (items * bpk) 64 + 7) / 8) ∧
    (NewBloomFilter items bpk).bits.length = (max (items * bpk) 64 + 7) / 8 ∧
    64 ≤ (NewBloomFilter items bpk).numBits ∧
    (NewBloomFilter items bpk).numHash = min 30 (max 1 (bpk * ln2Scaled / 2 ^ 53)) := by
  have hi0 : ¬ items = 0 := by omega
  have hb0 : ¬ bpk = 0 := by omega
  simp only [NewBloomFilter, if_neg hi0, if_neg hb0, List.length_replicate]
  unfold ln2Scaled
  generalize items * bpk = t at hs ⊢
  have h1 : t % 2 ^ 64 = t := Nat.mod_eq_of_lt (by omega)
  rw [h1]
  split_ifs <;> omega

/-- Witness for C8's amended claim at `(100, 10)`. -/
theorem newBloomFilter_params_witness :
    (NewBloomFilter 100 10).numBits = 8 * ((max (100 * 10) 64 + 7) / 8) ∧
    (NewBloomFilter 100 10).bits.length = (max (100 * 10) 64 + 7) / 8 ∧
    64 ≤ (NewBloomFilter 100 10).numBits ∧
    (NewBloomFilter 100 10).numHash = min 30 (max 1 (10 * ln2Scaled / 2 ^ 53)) :=
  newBloomFilter_params 100 10 (by norm_num) (by norm_num) (by norm_num)

/-- C10 counterexample: a 20-byte input whose header declares
`numBits = 2^64 - 1`.  The claim demands the corrupted-data error because
`20 < 20 + ceil(numBits/8)`, but the Go code computes `(numBits+7)/8` in
`uint64`, which wraps to 0, so decoding succeeds (with an empty bit
array). -/
theorem decodeBloomFilter_wrap_cex :
    DecodeBloomFilter decodeCexData =
      .ok { bits := [], numBits := 2 ^ 64 - 1, numHash := 0, numItems := 0 } ∧
    decodeCexData.length < 20 + (leVal (decodeCexData.take 8) + 7) / 8 := by
  refine ⟨rfl, by decide⟩

/-- C10 amended: `DecodeBloomFilter` returns the corrupted-data error
exactly when the input is shorter than the 20-byte header or shorter than
`20 + ((numBits+7) mod 2^64)/8` bytes — the byte count computed with
`uint64` wraparound, which differs from the exact `ceil(numBits/8)` only
for `numBits ≥ 2^64 - 7` — and otherwise succeeds with the decoded
`numBits`, `numHash`, `numItems` and bit array. -/
theorem decodeBloomFilter_spec (data : List Nat) :
    ((data.length < 20 ∨
        data.length < 20 + ((leVal (data.take 8) + 7) % 2 ^ 64) / 8) →
      DecodeBloomFilter data = .error .corruptedData) ∧
    (¬ (data.length < 20 ∨
        data.length < 20 + ((leVal (data.take 8) + 7) % 2 ^ 64) / 8) →
      DecodeBloomFilter data = .ok
        { bits := (data.drop 20).take (((leVal (data.take 8) + 7) % 2 ^ 64) / 8),
          numBits := leVal (data.take 8),
          numHash := leVal ((data.drop 8).take 4),
          numItems := leVal ((data.drop 12).take 8) }) := by
  constructor
  · intro h
    unfold DecodeBloomFilter
    by_cases h20 : data.length < 20
    · rw [if_pos h20]
    · rw [if_neg h20, if_pos (by omega)]
  · intro h
    push_neg at h
    unfold DecodeBloomFilter
    rw [if_neg (by omega), if_neg (by omega)]

/-- Witness for C10's amended claim: a well-formed 28-byte encoding decodes
successfully to its declared fields. -/
theorem decodeBloomFilter_spec_witness :
    DecodeBloomFilter decodeWitnessData = .ok
      { bits := (decodeWitnessData.drop 20).take
          (((leVal (decodeWitnessData.take 8) + 7) % 2 ^ 64) / 8),
        numBits := leVal (decodeWitnessData.take 8),
        numHash := leVal ((decodeWitnessData.drop 8).take 4),
        numItems := leVal ((decodeWitnessData.drop 12).take 8) } :=
  (decodeBloomFilter_spec decodeWitnessData).2 (by decide)

/-! ## WAL record encode/decode -/

theorem drop_add (l : List Nat) (n m : Nat) : l.drop (n + m) = (l.drop n).drop m :=
  (List.drop_drop m n l).symm

theorem recPayload_length (t : Nat) (k v : List Nat) :
    (recPayload t k v).length = 13 + k.length + v.length := by
  simp [recPayload]
  omega

theorem enc_length (op : WalOp) :
    op.enc.length = 21 + op.key.length + op.value.length := by
  cases op <;> simp [WalOp.enc, WalOp.key, WalOp.value, encRecord, recPayload, walMagic] <;> omega

theorem parseRecord_recPayload (t : Nat) (k v : List Nat)
    (hb : 13 + k.length + v.length ≤ 104857600) :
    parseRecord (recPayload t k v) = .ok (t, k, v) := by
  have h2564 : (256 : Nat) ^ 4 = 2 ^ 32 := by norm_num
  have hklt : k.length < 256 ^ 4 := by rw [h2564]; omega
  have hvlt : v.length < 256 ^ 4 := by rw [h2564]; omega
  have hplen := recPayload_length t k v
  have hd1 : (recPayload t k v).drop 1 =
      leBytes 4 k.length ++ (leBytes 4 v.length ++ (k ++ (v ++ leBytes 4 (crc32 (t ::
        (leBytes 4 k.length ++ (leBytes 4 v.length ++ (k ++ v)))))))) := rfl
  have hkval : leVal (((recPayload t k v).drop 1).take 4) = k.length := by
    rw [hd1, take_append_of_eq_length _ _ (by simp), leVal_leBytes_of_lt hklt]
  have hd5 : (recPayload t k v).drop 5 =
      leBytes 4 v.length ++ (k ++ (v ++ leBytes 4 (crc32 (t ::
        (leBytes 4 k.length ++ (leBytes 4 v.length ++ (k ++ v))))))) := by
    have h15 : (recPayload t k v).drop 5 = ((recPayload t k v).drop 1).drop 4 := by
      rw [List.drop_drop]
    rw [h15, hd1]
    exact drop_append_of_eq_length _ _ (by simp)
  have hvval : leVal (((recPayload t k v).drop 5).take 4) = v.length := by
    rw [hd5, take_append_of_eq_length _ _ (by simp), leVal_leBytes_of_lt hvlt]
  have hd9 : (recPayload t k v).drop 9 =
      k ++ (v ++ leBytes 4 (crc32 (t ::
        (leBytes 4 k.length ++ (leBytes 4 v.length ++ (k ++ v)))))) := by
    have h59 : (recPayload t k v).drop 9 = ((recPayload t k v).drop 5).drop 4 := by
      rw [List.drop_drop]
    rw [h59, hd5]
    exact drop_append_of_eq_length _ _ (by simp)
  have hkslice : ((recPayload t k v).drop 9).take k.length = k := by
    rw [hd9]
    exact take_append_of_eq_length _ _ rfl
  have hd9k : (recPayload t k v).drop (9 + k.length) =
      v ++ leBytes 4 (crc32 (t ::
        (leBytes 4 k.length ++ (leBytes 4 v.length ++ (k ++ v))))) := by
    rw [drop_add, hd9]
    exact drop_append_of_eq_length _ _ rfl
  have hvslice : ((recPayload t k v).drop (9 + k.length)).take v.length = v := by
    rw [hd9k]
    exact take_append_of_eq_length _ _ rfl
  have hd9kv : (recPayload t k v).drop (9 + k.length + v.length) =
      leBytes 4 (crc32 (t ::
        (leBytes 4 k.length ++ (leBytes 4 v.length ++ (k ++ v))))) := by
    rw [Nat.add_assoc, drop_add, hd9, drop_add]
    rw [drop_append_of_eq_length _ _ rfl]
    exact drop_append_of_eq_length _ _ rfl
  have hcrcval : leVal (((recPayload t k v).drop (9 + k.length + v.length)).take 4) =
      crc32 (t :: (leBytes 4 k.length ++ (leBytes 4 v.length ++ (k ++ v)))) := by
    rw [hd9kv, List.take_of_length_le (by simp), leVal_leBytes_of_lt (by rw [h2564]; exact crc32_lt _)]
  have hhead : (recPayload t k v).headD 0 = t := rfl
  unfold parseRecord
  rw [hkval, hvval, hkslice, hvslice, hcrcval, hhead, hplen]
  rw [if_neg (by omega)]
  rw [if_neg (by rw [Nat.mod_eq_of_lt (by omega)]; omega)]
  rw [if_neg (by simp)]

theorem readRecord_encRecord (data : List Nat) (pos : Nat) (t : Nat) (k v rest : List Nat)
    (hd : data.drop pos = encRecord t k v ++ rest)
    (hb : 13 + k.length + v.length ≤ 104857600) :
    ReadRecord data pos = (.ok (t, k, v), pos + (21 + k.length + v.length)) := by
  have h2564 : (256 : Nat) ^ 4 = 2 ^ 32 := by norm_num
  have hassoc : encRecord t k v ++ rest =
      walMagic ++ (leBytes 4 ((13 + k.length + v.length) % 2 ^ 32) ++
        (recPayload t k v ++ rest)) := by
    simp [encRecord, List.append_assoc]
  rw [hassoc] at hd
  have hplen := recPayload_length t k v
  have hmod : (13 + k.length + v.length) % 2 ^ 32 = 13 + k.length + v.length :=
    Nat.mod_eq_of_lt (by omega)
  have hlen : (data.drop pos).length = 21 + k.length + v.length + rest.length := by
    rw [hd]
    simp [walMagic]
    omega
  have htake4 : (data.drop pos).take 4 = walMagic := by
    rw [hd]
    exact take_append_of_eq_length _ _ rfl
  have hdrop4 : (data.drop pos).drop 4 =
      leBytes 4 ((13 + k.length + v.length) % 2 ^ 32) ++ (recPayload t k v ++ rest) := by
    rw [hd]
    exact drop_append_of_eq_length _ _ rfl
  have hreclen : leVal (((data.drop pos).drop 4).take 4) = 13 + k.length + v.length := by
    rw [hdrop4, take_append_of_eq_length _ _ (by simp), leVal_leBytes_of_lt (by rw [h2564]; omega),
      hmod]
  have hdrop8 : ((data.drop pos).drop 8) = recPayload t k v ++ rest := by
    have h48 : ((data.drop pos).drop 4).drop 4 = (data.drop pos).drop 8 := by
      rw [List.drop_drop]
    rw [← h48, hdrop4]
    exact drop_append_of_eq_length _ _ (by simp)
  have hbody : ((data.drop pos).drop 8).take (13 + k.length + v.length) = recPayload t k v := by
    rw [hdrop8]
    exact take_append_of_eq_length _ _ hplen
  unfold ReadRecord
  rw [hlen, htake4, hreclen, hbody]
  rw [if_neg (by omega), if_neg (by omega), if_neg (by simp [walMagic]), if_neg (by omega),
    if_neg (by omega), if_neg (by omega), if_neg (by omega), if_neg (by omega)]
  rw [parseRecord_recPayload t k v hb]
  exact congrArg₂ Prod.mk rfl (by omega)

theorem readRecord_enc (data : List Nat) (pos : Nat) (op : WalOp) (rest : List Nat)
    (hd : data.drop pos = op.enc ++ rest)
    (hb : 13 + op.key.length + op.value.length ≤ 104857600) :
    ReadRecord data pos = (.ok (op.recType, op.key, op.value), pos + op.enc.length) := by
  cases op with
  | put k v =>
    rw [enc_length]
    exact readRecord_encRecord data pos RecordTypePut k v rest hd hb
  | del k =>
    rw [enc_length]
    have hb2 : 13 + k.length + ([] : List Nat).length ≤ 104857600 := by
      simpa [WalOp.key, WalOp.value] using hb
    simpa [WalOp.recType, WalOp.key, WalOp.value] using
      readRecord_encRecord data pos RecordTypeDelete k [] rest hd (by simpa using hb2)

theorem readRecord_flipped (data : List Nat) (pos : Nat) (t : Nat) (k v rest : List Nat)
    (j b : Nat)
    (hd : data.drop pos = (walMagic ++ (leBytes 4 ((13 + k.length + v.length) % 2 ^ 32) ++
      (recPayload t k v).set j b)) ++ rest)
    (hb : 13 + k.length + v.length ≤ 104857600)
    (hbad : parseRecord ((recPayload t k v).set j b) = .error .corrupt) :
    ReadRecord data pos = (.error .corrupt, pos + (21 + k.length + v.length)) := by
  have h2564 : (256 : Nat) ^ 4 = 2 ^ 32 := by norm_num
  have hassoc : (walMagic ++ (leBytes 4 ((13 + k.length + v.length) % 2 ^ 32) ++
      (recPayload t k v).set j b)) ++ rest =
      walMagic ++ (leBytes 4 ((13 + k.length + v.length) % 2 ^ 32) ++
        ((recPayload t k v).set j b ++ rest)) := by
    simp [List.append_assoc]
  rw [hassoc] at hd
  have hrp := recPayload_length t k v
  have hplen : ((recPayload t k v).set j b).length = 13 + k.length + v.length := by
    rw [List.length_set]
    exact recPayload_length t k v
  have hmod : (13 + k.length + v.length) % 2 ^ 32 = 13 + k.length + v.length :=
    Nat.mod_eq_of_lt (by omega)
  have hlen : (data.drop pos).length = 21 + k.length + v.length + rest.length := by
    rw [hd]
    simp [walMagic]
    omega
  have htake4 : (data.drop pos).take 4 = walMagic := by
    rw [hd]
    exact take_append_of_eq_length _ _ rfl
  have hdrop4 : (data.drop pos).drop 4 =
      leBytes 4 ((13 + k.length + v.length) % 2 ^ 32) ++
        ((recPayload t k v).set j b ++ rest) := by
    rw [hd]
    exact drop_append_of_eq_length _ _ rfl
  have hreclen : leVal (((data.drop pos).drop 4).take 4) = 13 + k.length + v.length := by
    rw [hdrop4, take_append_of_eq_length _ _ (by simp), leVal_leBytes_of_lt (by rw [h2564]; omega),
      hmod]
  have hdrop8 : ((data.drop pos).drop 8) = (recPayload t k v).set j b ++ rest := by
    have h48 : ((data.drop pos).drop 4).drop 4 = (data.drop pos).drop 8 := by
      rw [List.drop_drop]
    rw [← h48, hdrop4]
    exact drop_append_of_eq_length _ _ (by simp)
  have hbody : ((data.drop pos).drop 8).take (13 + k.length + v.length) =
      (recPayload t k v).set j b := by
    rw [hdrop8]
    exact take_append_of_eq_length _ _ hplen
  unfold ReadRecord
  rw [hlen, htake4, hreclen, hbody]
  rw [if_neg (by omega), if_neg (by omega), if_neg (by simp [walMagic]), if_neg (by omega),
    if_neg (by omega), if_neg (by omega), if_neg (by omega), if_neg (by omega)]
  rw [hbad]
  exact congrArg₂ Prod.mk rfl (by omega)

theorem readRecord_end (data : List Nat) (pos : Nat) (hd : data.drop pos = []) :
    ReadRecord data pos = (.error .eof, pos) := by
  unfold ReadRecord
  rw [hd]
  rw [if_pos (by simp)]

/-! ## Forward scan (`ScanToNextRecord`) -/

theorem getD_drop (l : List Nat) (n i : Nat) : (l.drop n).getD i 0 = l.getD (n + i) 0 := by
  rw [List.getD, List.getD, List.get?_eq_getElem?, List.get?_eq_getElem?, List.getElem?_drop]

theorem getD_append_left {l1 l2 : List Nat} {i : Nat} (h : i < l1.length) :
    (l1 ++ l2).getD i 0 = l1.getD i 0 := by
  rw [List.getD, List.getD, List.get?_eq_getElem?, List.get?_eq_getElem?, List.getElem?_append,
    if_pos h]

theorem scanLoop_advance (data : List Nat) (fuel pos m : Nat) (hpos : pos < data.length)
    (hbyte : data.getD pos 0 = walMagic.getD m 0) (hm : ¬ m = 3) :
    scanLoop data (fuel + 1) pos m = scanLoop data fuel (pos + 1) (m + 1) := by
  simp only [scanLoop]
  rw [dif_pos hpos, if_pos hbyte, if_neg hm]

theorem scanLoop_finish (data : List Nat) (fuel pos : Nat) (hpos : pos < data.length)
    (hbyte : data.getD pos 0 = walMagic.getD 3 0) :
    scanLoop data (fuel + 1) pos 3 = (true, pos - 3) := by
  simp only [scanLoop]
  rw [dif_pos hpos, if_pos hbyte]
  simp

theorem scan_at_magic (data : List Nat) (pos : Nat) (rest : List Nat)
    (hd : data.drop pos = walMagic ++ rest) :
    ScanToNextRecord data pos = (true, pos) := by
  have hlen : (data.drop pos).length = 4 + rest.length := by
    rw [hd]
    simp only [List.length_append, walMagic, List.length_cons, List.length_nil]
  rw [List.length_drop] at hlen
  have hp : pos + 4 ≤ data.length := by omega
  have hbyte : ∀ i, i < 4 → data.getD (pos + i) 0 = walMagic.getD i 0 := by
    intro i hi
    rw [← getD_drop, hd, getD_append_left (by simp [walMagic]; omega)]
  unfold ScanToNextRecord
  obtain ⟨g, hg⟩ : ∃ g, data.length + 1 = g + 3 + 1 := ⟨data.length - 3, by omega⟩
  rw [hg]
  calc scanLoop data (g + 3 + 1) pos 0
      = scanLoop data (g + 3) (pos + 1) (0 + 1) :=
        scanLoop_advance data (g + 3) pos 0 (by omega)
          (by simpa using hbyte 0 (by norm_num)) (by norm_num)
    _ = scanLoop data (g + 2) (pos + 1 + 1) (1 + 1) :=
        scanLoop_advance data (g + 2) (pos + 1) 1 (by omega)
          (hbyte 1 (by norm_num)) (by norm_num)
    _ = scanLoop data (g + 1) (pos + 1 + 1 + 1) (2 + 1) :=
        scanLoop_advance data (g + 1) (pos + 1 + 1) 2 (by omega)
          (by simpa [Nat.add_assoc] using hbyte 2 (by norm_num)) (by norm_num)
    _ = (true, pos + 1 + 1 + 1 - 3) :=
        scanLoop_finish data g (pos + 1 + 1 + 1) (by omega)
          (by simpa [Nat.add_assoc] using hbyte 3 (by norm_num))
    _ = (true, pos) := by
        refine congrArg₂ Prod.mk rfl ?_
        omega

/-! ## Recovery loop -/

theorem recoverLoop_step_ok (data : List Nat) (fuel pos : Nat) (mem : SkipList) (r c : Nat)
    (op : WalOp) (rest : List Nat)
    (hd : data.drop pos = op.enc ++ rest)
    (hb : 13 + op.key.length + op.value.length ≤ 104857600) :
    recoverLoop data (fuel + 1) pos mem r c
      = recoverLoop data fuel (pos + op.enc.length) (applyOp mem op) (r + 1) c := by
  have hr := readRecord_enc data pos op rest hd hb
  cases op with
  | put k v =>
    simp only [recoverLoop, hr, WalOp.recType, if_true]
    rfl
  | del k =>
    simp only [recoverLoop, hr, WalOp.recType]
    norm_num [RecordTypePut, RecordTypeDelete]
    rfl

theorem recoverLoop_end (data : List Nat) (fuel pos : Nat) (mem : SkipList) (r c : Nat)
    (hd : data.drop pos = []) :
    recoverLoop data (fuel + 1) pos mem r c = (mem, r, c) := by
  simp only [recoverLoop, readRecord_end data pos hd]

theorem walBytes_cons (op : WalOp) (ops : List WalOp) :
    walBytes (op :: ops) = op.enc ++ walBytes ops := by
  simp [walBytes]

theorem walBytes_length_ge (ops : List WalOp) : ops.length ≤ (walBytes ops).length := by
  induction ops with
  | nil => simp [walBytes]
  | cons op ops ih =>
    rw [walBytes_cons]
    have := enc_length op
    simp only [List.length_append, List.length_cons]
    omega

theorem recoverLoop_replay (ops : List WalOp) :
    ∀ (data : List Nat) (fuel pos : Nat) (mem : SkipList) (r c : Nat),
      data.drop pos = walBytes ops →
      (∀ op ∈ ops, 13 + op.key.length + op.value.length ≤ 104857600) →
      ops.length + 1 ≤ fuel →
      recoverLoop data fuel pos mem r c = (applySeq ops mem, r + ops.length, c) := by
  induction ops with
  | nil =>
    intro data fuel pos mem r c hd hb hf
    obtain ⟨f, rfl⟩ : ∃ f, fuel = f + 1 := ⟨fuel - 1, by omega⟩
    rw [recoverLoop_end data f pos mem r c (by simpa [walBytes] using hd)]
    simp [applySeq]
  | cons op ops ih =>
    intro data fuel pos mem r c hd hb hf
    simp only [List.length_cons] at hf
    obtain ⟨f, rfl⟩ : ∃ f, fuel = f + 1 := ⟨fuel - 1, by omega⟩
    rw [walBytes_cons] at hd
    rw [recoverLoop_step_ok data f pos mem r c op (walBytes ops) hd (hb op (by simp))]
    have hd3 : data.drop (pos + op.enc.length) = walBytes ops := by
      rw [drop_add, hd]
      exact drop_append_of_eq_length _ _ rfl
    rw [ih data f (pos + op.enc.length) (applyOp mem op) (r + 1) c hd3
      (fun o ho => hb o (by simp [ho])) (by omega)]
    refine congrArg₂ Prod.mk rfl (congrArg₂ Prod.mk ?_ rfl)
    simp only [List.length_cons]
    omega

theorem foldl_memApplyOp (ops : List WalOp) :
    ∀ m : Memtable, m.state = memtableActive →
      ops.foldl memApplyOp m =
        { data := applySeq ops m.data, state := memtableActive, maxsize := m.maxsize } := by
  induction ops with
  | nil =>
    intro m hm
    cases m
    simp_all [applySeq]
  | cons op ops ih =>
    intro m hm
    simp only [List.foldl_cons]
    have hstep : memApplyOp m op =
        { data := applyOp m.data op, state := memtableActive, maxsize := m.maxsize } := by
      cases op <;>
        simp [memApplyOp, Memtable.Put, Memtable.Delete, hm, applyOp, memtableActive]
    rw [hstep, ih _ rfl]
    simp [applySeq]

/-- C2: WAL round trip.  Writing a sequence of Put/Delete operations through
`WAL.Write` and replaying the bytes with `RecoverMemtable` produces a
memtable whose `Get`, on every key mentioned in the sequence, agrees with
applying the sequence directly to a fresh memtable.  (In fact the whole
skip-list state coincides.)  The bound keeps each record under the
reader's 100 MB sanity limit, as every record written by this WAL is. -/
theorem wal_roundtrip (ops : List WalOp) (maxSize : Int)
    (hb : ∀ op ∈ ops, 13 + op.key.length + op.value.length ≤ 104857600)
    (k : List Nat) (_hk : k ∈ ops.map WalOp.key) :
    (RecoverMemtable (walBytes ops) maxSize).1.Get k
      = (ops.foldl memApplyOp (NewMemtable maxSize)).Get k := by
  have hlen := walBytes_length_ge ops
  have hrec := recoverLoop_replay ops (walBytes ops) ((walBytes ops).length + 1) 0
    NewSkipList 0 0 (by simp) hb (by omega)
  unfold RecoverMemtable
  rw [hrec, foldl_memApplyOp ops (NewMemtable maxSize) rfl]
  rfl

/-- Witness for C2 on a concrete two-operation log. -/
theorem wal_roundtrip_witness :
    (RecoverMemtable (walBytes [WalOp.put [1] [2], WalOp.del [1]]) 1024).1.Get [1]
      = ([WalOp.put [1] [2], WalOp.del [1]].foldl memApplyOp (NewMemtable 1024)).Get [1] :=
  wal_roundtrip [WalOp.put [1] [2], WalOp.del [1]] 1024 (by decide) [1] (by decide)

theorem recoverLoop_step_corrupt (data : List Nat) (fuel pos : Nat) (mem : SkipList)
    (r c : Nat) (pos2 : Nat) (tail : List Nat)
    (hr : ReadRecord data pos = (.error .corrupt, pos2))
    (hscan : data.drop pos2 = walMagic ++ tail) :
    recoverLoop data (fuel + 1) pos mem r c = recoverLoop data fuel pos2 mem r (c + 1) := by
  simp only [recoverLoop, hr, scan_at_magic data pos2 tail hscan]

/-- C3: a WAL of three records whose middle record has one payload byte
flipped so that it no longer validates (its CRC, or with a flip inside a
length field the length cross-check, fails): recovery applies records 1 and
3, skips record 2, counts exactly one corrupted record, and returns without
error (the model's `RecoverMemtable` is total — the Go function reports an
error only when the file cannot be opened). -/
theorem wal_corrupt_record_skipped (o1 o3 : WalOp) (t2 : Nat) (k2 v2 : List Nat)
    (j b : Nat) (maxSize : Int)
    (hb1 : 13 + o1.key.length + o1.value.length ≤ 104857600)
    (hb3 : 13 + o3.key.length + o3.value.length ≤ 104857600)
    (_hj : j < (recPayload t2 k2 v2).length)
    (hb2 : 13 + k2.length + v2.length ≤ 104857600)
    (hbad : parseRecord ((recPayload t2 k2 v2).set j b) = .error .corrupt) :
    RecoverMemtable (o1.enc ++ ((walMagic ++ (leBytes 4 ((13 + k2.length + v2.length) % 2 ^ 32)
        ++ (recPayload t2 k2 v2).set j b)) ++ o3.enc)) maxSize
      = ({ data := applySeq [o1, o3] NewSkipList, state := memtableActive,
           maxsize := maxSize }, 2, 1) := by
  set data := o1.enc ++ ((walMagic ++ (leBytes 4 ((13 + k2.length + v2.length) % 2 ^ 32)
      ++ (recPayload t2 k2 v2).set j b)) ++ o3.enc) with hdata
  have henc1 := enc_length o1
  have henc3 := enc_length o3
  have hpxlen : ((recPayload t2 k2 v2).set j b).length = 13 + k2.length + v2.length := by
    rw [List.length_set]
    exact recPayload_length t2 k2 v2
  have hcorrlen : (walMagic ++ (leBytes 4 ((13 + k2.length + v2.length) % 2 ^ 32)
      ++ (recPayload t2 k2 v2).set j b)).length = 21 + k2.length + v2.length := by
    simp only [List.length_append, leBytes_length, hpxlen, walMagic, List.length_cons,
      List.length_nil]
    omega
  have hdlen : data.length = o1.enc.length + (21 + k2.length + v2.length) + o3.enc.length := by
    rw [hdata]
    simp only [List.length_append, hcorrlen]
    omega
  have hA : data.drop 0 = o1.enc ++ ((walMagic ++ (leBytes 4 ((13 + k2.length + v2.length)
      % 2 ^ 32) ++ (recPayload t2 k2 v2).set j b)) ++ o3.enc) := by
    rw [List.drop_zero]
  have hB : data.drop o1.enc.length = (walMagic ++ (leBytes 4 ((13 + k2.length + v2.length)
      % 2 ^ 32) ++ (recPayload t2 k2 v2).set j b)) ++ o3.enc := by
    rw [hdata]
    exact drop_append_of_eq_length _ _ rfl
  have hC : data.drop (o1.enc.length + (21 + k2.length + v2.length)) = o3.enc := by
    rw [drop_add, hB]
    exact drop_append_of_eq_length _ _ hcorrlen
  have hD : data.drop (o1.enc.length + (21 + k2.length + v2.length) + o3.enc.length) = [] := by
    rw [drop_add, hC]
    exact List.drop_length _
  obtain ⟨tail3, htail3⟩ : ∃ tail, o3.enc = walMagic ++ tail := by
    cases o3 <;> exact ⟨_, rfl⟩
  have hr2 := readRecord_flipped data o1.enc.length t2 k2 v2 o3.enc j b hB hb2 hbad
  have hloop : recoverLoop data (data.length + 1) 0 NewSkipList 0 0
      = (applyOp (applyOp NewSkipList o1) o3, 2, 1) := by
    rw [show data.length + 1 = data.length - 3 + 1 + 1 + 1 + 1 from by omega]
    rw [recoverLoop_step_ok data (data.length - 3 + 1 + 1 + 1) 0 NewSkipList 0 0 o1 _ hA hb1]
    simp only [Nat.zero_add]
    rw [recoverLoop_step_corrupt data (data.length - 3 + 1 + 1) o1.enc.length
      (applyOp NewSkipList o1) 1 0 (o1.enc.length + (21 + k2.length + v2.length)) tail3 hr2
      (by rw [hC, htail3])]
    simp only [Nat.zero_add]
    rw [recoverLoop_step_ok data (data.length - 3 + 1)
      (o1.enc.length + (21 + k2.length + v2.length)) (applyOp NewSkipList o1) 1 1 o3 []
      (by rw [hC, List.append_nil]) hb3]
    rw [recoverLoop_end data (data.length - 3)
      (o1.enc.length + (21 + k2.length + v2.length) + o3.enc.length)
      (applyOp (applyOp NewSkipList o1) o3) (1 + 1) 1 hD]
  unfold RecoverMemtable
  rw [hloop]
  rfl

/-! ## DB read/write path (C1, C4) -/

theorem tablesLookup_eq_layered (ts : List TableGet) (key : List Nat) :
    tablesLookup ts key = layeredLookup ts key := by
  induction ts with
  | nil => rfl
  | cons t ts ih => simp only [tablesLookup, layeredLookup, ih]

/-- C1: for every open database and key, `DB.Get` equals the layered
first-found lookup over active memtable, immutable memtable (if present)
and the tables newest-first, with tombstones and misses both reported as
`NotFound`. -/
theorem db_get_layered (db : DB) (key : List Nat) (hopen : db.closed = false) :
    db.Get key = layeredLookup db.layers key := by
  unfold DB.Get DB.layers
  rw [hopen]
  cases him : db.immutable with
  | none =>
    simp only [List.append_nil, List.nil_append, List.cons_append, layeredLookup,
      Bool.false_eq_true, if_false]
    rw [tablesLookup_eq_layered]
    rfl
  | some imm =>
    simp only [List.append_assoc, List.cons_append, List.nil_append, layeredLookup,
      Bool.false_eq_true, if_false]
    rw [tablesLookup_eq_layered]
    rfl

/-- Witness for C1 on a concrete open database holding one key. -/
theorem db_get_layered_witness :
    dbWitnessState.Get [5] = layeredLookup dbWitnessState.layers [5] :=
  db_get_layered dbWitnessState [5] rfl

/-- C4: if the WAL append at the start of `DB.Put` or `DB.Delete` fails,
the operation returns an error and the memtable is untouched — the same
memtable state, hence the same size and count.  (The WAL file itself may
hold a truncated partial record, which the reader detects and skips.) -/
theorem db_write_wal_failure (db : DB) (key value : List Nat)
    (hopen : db.closed = false) :
    ((db.Put key value false).1 = .error .walWriteFailed ∧
     (db.Put key value false).2.memtable = db.memtable ∧
     (db.Put key value false).2.memtable.Size = db.memtable.Size ∧
     (db.Put key value false).2.memtable.Count = db.memtable.Count) ∧
    ((db.Delete key false).1 = .error .walWriteFailed ∧
     (db.Delete key false).2.memtable = db.memtable ∧
     (db.Delete key false).2.memtable.Size = db.memtable.Size ∧
     (db.Delete key false).2.memtable.Count = db.memtable.Count) := by
  unfold DB.Put DB.Delete
  rw [hopen]
  simp

/-- Witness for C4 on a concrete open database. -/
theorem db_write_wal_failure_witness :
    (dbWitnessState.Put [7] [8] false).1 = .error .walWriteFailed ∧
    (dbWitnessState.Put [7] [8] false).2.memtable = dbWitnessState.memtable :=
  ⟨(db_write_wal_failure dbWitnessState [7] [8] rfl).1.1,
   (db_write_wal_failure dbWitnessState [7] [8] rfl).1.2.1⟩

set_option maxRecDepth 20000 in
/-- Witness for C3 on a concrete three-record WAL where the corrupted
middle record's type byte is overwritten, making its CRC check fail. -/
theorem wal_corrupt_record_skipped_witness :
    RecoverMemtable ((WalOp.put [97] [49]).enc ++ ((walMagic ++
        (leBytes 4 ((13 + [98].length + [50].length) % 2 ^ 32)
        ++ (recPayload 1 [98] [50]).set 0 7)) ++ (WalOp.del [97]).enc)) 1024
      = ({ data := applySeq [WalOp.put [97] [49], WalOp.del [97]] NewSkipList,
           state := memtableActive, maxsize := 1024 }, 2, 1) :=
  wal_corrupt_record_skipped (WalOp.put [97] [49]) (WalOp.del [97]) 1 [98] [50] 0 7 1024
    (by decide) (by decide) (by decide) (by decide) rfl

/-! ## SSTable: encoding lengths and block algebra -/

theorem encEntry_length (e : TableEntry) :
    (encEntry e).length = 9 + (e.key.length + e.value.length) := by
  simp [encEntry]
  omega

theorem blockBytes_nil : blockBytes [] = [] := rfl

theorem blockBytes_cons (e : TableEntry) (B : List TableEntry) :
    blockBytes (e :: B) = encEntry e ++ blockBytes B := by
  simp [blockBytes]

theorem blockBytes_append (P Q : List TableEntry) :
    blockBytes (P ++ Q) = blockBytes P ++ blockBytes Q := by
  simp [blockBytes]

theorem blockOut_length (B : List TableEntry) :
    (blockOut B).length = (blockBytes B).length + 4 := by
  simp [blockOut, leBytes_length]

theorem outBytes_nil : outBytes [] = [] := rfl

theorem outBytes_cons (B : List TableEntry) (Bs : List (List TableEntry)) :
    outBytes (B :: Bs) = blockOut B ++ outBytes Bs := by
  simp [outBytes]

theorem outBytes_append (Bs Cs : List (List TableEntry)) :
    outBytes (Bs ++ Cs) = outBytes Bs ++ outBytes Cs := by
  simp [outBytes]

theorem blockBytes_length_ge (B : List TableEntry) :
    9 * B.length ≤ (blockBytes B).length := by
  induction B with
  | nil => simp [blockBytes]
  | cons e B ih =>
    rw [blockBytes_cons]
    simp only [List.length_append, List.length_cons, encEntry_length]
    omega

theorem headD_append_of_ne_nil {P : List TableEntry} (Q : List TableEntry)
    (h : P ≠ []) (d : TableEntry) : (P ++ Q).headD d = P.headD d := by
  cases P with
  | nil => exact absurd rfl h
  | cons a as => rfl

/-! ## SSTable: chunk structure of the written blocks -/

theorem chunkEntries_eq (es : List TableEntry) : ∀ P,
    chunkEntries es P = chunksClosed es P ++
      (if (pendingAfter es P).length = 0 then [] else [pendingAfter es P]) := by
  induction es with
  | nil =>
    intro P
    simp [chunkEntries, chunksClosed, pendingAfter]
  | cons e es ih =>
    intro P
    by_cases h : BlockSize ≤ (blockBytes (P ++ [e])).length
    · simp only [chunkEntries, chunksClosed, pendingAfter, if_pos h]
      rw [ih []]
      rfl
    · simp only [chunkEntries, chunksClosed, pendingAfter, if_neg h]
      exact ih (P ++ [e])

theorem chunkEntries_flatten (es : List TableEntry) : ∀ P,
    (chunkEntries es P).flatten = P ++ es := by
  induction es with
  | nil =>
    intro P
    simp only [chunkEntries]
    by_cases h : P.length = 0
    · rw [if_pos h, List.length_eq_zero.mp h]
      rfl
    · rw [if_neg h]
      simp
  | cons e es ih =>
    intro P
    by_cases h : BlockSize ≤ (blockBytes (P ++ [e])).length
    · simp only [chunkEntries, if_pos h, List.flatten_cons, ih []]
      simp
    · simp only [chunkEntries, if_neg h, ih (P ++ [e])]
      simp

theorem chunkEntries_ne_nil (es : List TableEntry) : ∀ P B,
    B ∈ chunkEntries es P → B ≠ [] := by
  induction es with
  | nil =>
    intro P B hB
    simp only [chunkEntries] at hB
    by_cases h : P.length = 0
    · rw [if_pos h] at hB
      simp at hB
    · rw [if_neg h, List.mem_singleton] at hB
      subst hB
      intro hP
      exact h (by simp [hP])
  | cons e es ih =>
    intro P B hB
    by_cases h : BlockSize ≤ (blockBytes (P ++ [e])).length
    · simp only [chunkEntries, if_pos h, List.mem_cons] at hB
      rcases hB with hB | hB
      · subst hB
        simp
      · exact ih [] B hB
    · simp only [chunkEntries, if_neg h] at hB
      exact ih (P ++ [e]) B hB

theorem chunkEntries_length_le (es : List TableEntry) (P : List TableEntry) :
    (chunkEntries es P).length ≤ (P ++ es).length := by
  have hfl := chunkEntries_flatten es P
  have hne := chunkEntries_ne_nil es P
  rw [← hfl]
  generalize chunkEntries es P = Cs at hne ⊢
  induction Cs with
  | nil => simp
  | cons B Bs ih =>
    have hB : B ≠ [] := hne B (by simp)
    have h1 : 1 ≤ B.length := by
      cases B with
      | nil => exact absurd rfl hB
      | cons a as => simp
    have := ih (fun X hX => hne X (by simp [hX]))
    simp only [List.length_cons, List.flatten_cons, List.length_append]
    omega

/-! ## SSTable: writer state after a fold of `Add` -/

theorem flushBlock_of_eq {w : SSTableWriter} (h : w.entryCount = 0) :
    w.flushBlock = w := by
  unfold SSTableWriter.flushBlock
  rw [if_pos h]

theorem flushBlock_of_ne {w : SSTableWriter} (h : w.entryCount ≠ 0) :
    w.flushBlock =
      { w with
        index := w.index ++ [(w.firstKey, w.offset, w.blockBuffer.length + 4)],
        out := w.out ++ (w.blockBuffer ++ leBytes 4 (crc32 w.blockBuffer)),
        offset := w.offset + (w.blockBuffer.length + 4),
        blockBuffer := [],
        firstKey := [],
        entryCount := 0 } := by
  unfold SSTableWriter.flushBlock
  rw [if_neg h]

theorem indexOfBlocks_cons (B : List TableEntry) (Bs : List (List TableEntry)) (off : Nat) :
    indexOfBlocks (B :: Bs) off =
      ((B.headD noEntry).key, off, (blockBytes B).length + 4) ::
        indexOfBlocks Bs (off + ((blockBytes B).length + 4)) := rfl

theorem indexOfBlocks_append (Bs Cs : List (List TableEntry)) : ∀ off,
    indexOfBlocks (Bs ++ Cs) off =
      indexOfBlocks Bs off ++ indexOfBlocks Cs (off + (outBytes Bs).length) := by
  induction Bs with
  | nil =>
    intro off
    simp [indexOfBlocks, outBytes_nil]
  | cons B Bs ih =>
    intro off
    simp only [List.cons_append, indexOfBlocks_cons, ih, outBytes_cons,
      List.length_append, blockOut_length, Nat.add_assoc]

theorem sstw_fold (es : List TableEntry) : ∀ (w : SSTableWriter) (P : List TableEntry),
    w.blockBuffer = blockBytes P →
    w.entryCount = P.length →
    (P ≠ [] → w.firstKey = (P.headD noEntry).key) →
    (es.foldl SSTableWriter.Add w).out = w.out ++ outBytes (chunksClosed es P) ∧
    (es.foldl SSTableWriter.Add w).offset
      = w.offset + (outBytes (chunksClosed es P)).length ∧
    (es.foldl SSTableWriter.Add w).index
      = w.index ++ indexOfBlocks (chunksClosed es P) w.offset ∧
    (es.foldl SSTableWriter.Add w).blockBuffer = blockBytes (pendingAfter es P) ∧
    (es.foldl SSTableWriter.Add w).entryCount = (pendingAfter es P).length ∧
    (pendingAfter es P ≠ [] →
      (es.foldl SSTableWriter.Add w).firstKey
        = ((pendingAfter es P).headD noEntry).key) := by
  induction es with
  | nil =>
    intro w P hbuf hcnt hfk
    exact ⟨(List.append_nil _).symm, rfl, (List.append_nil _).symm, hbuf, hcnt, hfk⟩
  | cons e es ih =>
    intro w P hbuf hcnt hfk
    have hPe : blockBytes (P ++ [e]) = blockBytes P ++ encEntry e := by
      rw [blockBytes_append, blockBytes_cons, blockBytes_nil, List.append_nil]
    have hstep : (addStep w e).blockBuffer = blockBytes (P ++ [e]) := by
      simp [addStep, hbuf, hPe]
    have hfk2 : (if w.entryCount = 0 then e.key else w.firstKey)
        = ((P ++ [e]).headD noEntry).key := by
      cases P with
      | nil => simp [hcnt]
      | cons p ps =>
        rw [hcnt, if_neg (by simp), hfk (by simp)]
        rfl
    rw [List.foldl_cons]
    by_cases h : BlockSize ≤ (blockBytes (P ++ [e])).length
    · have hAdd : SSTableWriter.Add w e =
          { out := w.out ++ blockOut (P ++ [e]),
            offset := w.offset + ((blockBytes (P ++ [e])).length + 4),
            blockBuffer := [],
            index := w.index ++
              [(((P ++ [e]).headD noEntry).key, w.offset, (blockBytes (P ++ [e])).length + 4)],
            firstKey := [],
            entryCount := 0,
            totalKeys := w.totalKeys + 1,
            bloomFilter := addBloom w e.key,
            bitsPerKey := w.bitsPerKey } := by
        unfold SSTableWriter.Add
        rw [hstep, if_pos h,
          @flushBlock_of_ne (addStep w e) (by simp [addStep])]
        simp only [addStep, hstep]
        rw [hfk2]
        simp [addStep, hbuf, hPe, blockOut]
      obtain ⟨h1, h2, h3, h4, h5, h6⟩ := ih (SSTableWriter.Add w e) []
        (by rw [hAdd]; rfl) (by rw [hAdd]; rfl) (fun hc => absurd rfl hc)
      have ho : (SSTableWriter.Add w e).out = w.out ++ blockOut (P ++ [e]) := by
        rw [hAdd]
      have hof : (SSTableWriter.Add w e).offset
          = w.offset + ((blockBytes (P ++ [e])).length + 4) := by
        rw [hAdd]
      have hix : (SSTableWriter.Add w e).index = w.index ++
          [(((P ++ [e]).headD noEntry).key, w.offset, (blockBytes (P ++ [e])).length + 4)] := by
        rw [hAdd]
      have hcc : chunksClosed (e :: es) P = (P ++ [e]) :: chunksClosed es [] := by
        simp only [chunksClosed, if_pos h]
      have hpa : pendingAfter (e :: es) P = pendingAfter es [] := by
        simp only [pendingAfter, if_pos h]
      refine ⟨?_, ?_, ?_, ?_, ?_, ?_⟩
      · rw [h1, ho, hcc, outBytes_cons]
        simp [List.append_assoc]
      · rw [h2, hof, hcc]
        simp only [outBytes_cons, List.length_append, blockOut_length]
        omega
      · rw [h3, hix, hof, hcc, indexOfBlocks_cons]
        simp [List.append_assoc]
      · rw [hpa]
        exact h4
      · rw [hpa]
        exact h5
      · rw [hpa]
        exact h6
    · have hAdd : SSTableWriter.Add w e = addStep w e := by
        unfold SSTableWriter.Add
        rw [hstep, if_neg h]
      rw [hAdd]
      obtain ⟨h1, h2, h3, h4, h5, h6⟩ := ih (addStep w e) (P ++ [e]) hstep
        (by simp [addStep, hcnt]) (fun _ => by simp only [addStep]; rw [hfk2])
      have hcc : chunksClosed (e :: es) P = chunksClosed es (P ++ [e]) := by
        simp only [chunksClosed, if_neg h]
      have hpa : pendingAfter (e :: es) P = pendingAfter es (P ++ [e]) := by
        simp only [pendingAfter, if_neg h]
      refine ⟨?_, ?_, ?_, ?_, ?_, ?_⟩
      · rw [h1, hcc]
        rfl
      · rw [h2, hcc]
        rfl
      · rw [h3, hcc]
        rfl
      · rw [h4, hpa]
      · rw [h5, hpa]
      · rw [hpa]
        exact h6

theorem add_bitsPerKey (w : SSTableWriter) (e : TableEntry) :
    (SSTableWriter.Add w e).bitsPerKey = w.bitsPerKey := by
  unfold SSTableWriter.Add SSTableWriter.flushBlock
  split
  · split <;> rfl
  · rfl

theorem add_bloom_wf {w : SSTableWriter} (e : TableEntry)
    (hbpk : w.bitsPerKey ≤ 2 ^ 31)
    (hwf : ∀ bf, w.bloomFilter = some bf → bf.WF) :
    ∀ bf, (SSTableWriter.Add w e).bloomFilter = some bf → bf.WF := by
  have hb : ∀ bf, addBloom w e.key = some bf → bf.WF := by
    intro bf hbf
    unfold addBloom at hbf
    by_cases h : 0 < w.bitsPerKey
    · rw [if_pos h] at hbf
      cases hw : w.bloomFilter with
      | none =>
        rw [hw] at hbf
        simp at hbf
        rw [← hbf]
        exact add_wf (newBloomFilter_wf 1000 w.bitsPerKey (by norm_num) hbpk) e.key
      | some bf0 =>
        rw [hw] at hbf
        simp at hbf
        rw [← hbf]
        exact add_wf (hwf bf0 hw) e.key
    · rw [if_neg h] at hbf
      exact hwf bf hbf
  unfold SSTableWriter.Add SSTableWriter.flushBlock
  split
  · split
    · exact hb
    · exact hb
  · exact hb

theorem fold_add_bloom_wf (es : List TableEntry) : ∀ (w : SSTableWriter),
    w.bitsPerKey ≤ 2 ^ 31 →
    (∀ bf, w.bloomFilter = some bf → bf.WF) →
    (es.foldl SSTableWriter.Add w).bitsPerKey = w.bitsPerKey ∧
    (∀ bf, (es.foldl SSTableWriter.Add w).bloomFilter = some bf → bf.WF) := by
  induction es with
  | nil => exact fun w _ hwf => ⟨rfl, hwf⟩
  | cons e es ih =>
    intro w hbpk hwf
    rw [List.foldl_cons]
    have hb := add_bitsPerKey w e
    obtain ⟨ih1, ih2⟩ := ih (SSTableWriter.Add w e) (by rw [hb]; exact hbpk)
      (add_bloom_wf e hbpk hwf)
    exact ⟨by rw [ih1, hb], ih2⟩

theorem sstw_flushBlock_final (es : List TableEntry) (bpk : Nat) :
    (es.foldl SSTableWriter.Add (NewSSTableWriter bpk)).flushBlock.out
      = outBytes (chunkEntries es []) ∧
    (es.foldl SSTableWriter.Add (NewSSTableWriter bpk)).flushBlock.offset
      = (outBytes (chunkEntries es [])).length ∧
    (es.foldl SSTableWriter.Add (NewSSTableWriter bpk)).flushBlock.index
      = indexOfBlocks (chunkEntries es []) 0 ∧
    (es.foldl SSTableWriter.Add (NewSSTableWriter bpk)).flushBlock.bloomFilter
      = (es.foldl SSTableWriter.Add (NewSSTableWriter bpk)).bloomFilter := by
  obtain ⟨h1, h2, h3, h4, h5, h6⟩ :=
    sstw_fold es (NewSSTableWriter bpk) [] rfl rfl (fun hc => absurd rfl hc)
  rw [show (NewSSTableWriter bpk).out = [] from rfl, List.nil_append] at h1
  rw [show (NewSSTableWriter bpk).offset = 0 from rfl, Nat.zero_add] at h2
  rw [show (NewSSTableWriter bpk).index = [] from rfl, List.nil_append] at h3
  by_cases hP : pendingAfter es [] = []
  · have hcnt0 : (es.foldl SSTableWriter.Add (NewSSTableWriter bpk)).entryCount = 0 := by
      rw [h5, hP]
      rfl
    have hCs : chunkEntries es [] = chunksClosed es [] := by
      rw [chunkEntries_eq es [], hP]
      simp
    rw [flushBlock_of_eq hcnt0, hCs]
    exact ⟨h1, h2, h3, rfl⟩
  · have hcnt : (es.foldl SSTableWriter.Add (NewSSTableWriter bpk)).entryCount ≠ 0 := by
      rw [h5]
      cases hpe : pendingAfter es [] with
      | nil => exact absurd hpe hP
      | cons a as => simp
    have hCs : chunkEntries es [] = chunksClosed es [] ++ [pendingAfter es []] := by
      rw [chunkEntries_eq es []]
      rw [if_neg (by
        intro hlen
        exact hP (List.length_eq_zero.mp hlen))]
    rw [flushBlock_of_ne hcnt, hCs]
    dsimp only
    refine ⟨?_, ?_, ?_, rfl⟩
    · rw [h1, h4, outBytes_append]
      simp [outBytes, blockOut]
    · rw [h2, h4, outBytes_append]
      simp only [List.length_append, outBytes, blockOut, List.map_cons, List.map_nil,
        List.flatten_cons, List.flatten_nil, List.append_nil, leBytes_length]
    · rw [h3, h2, h4, h6 hP, indexOfBlocks_append, Nat.zero_add]
      rfl

theorem sstw_finish_eq (es : List TableEntry) (bpk : Nat) :
    (es.foldl SSTableWriter.Add (NewSSTableWriter bpk)).Finish
      = sstFileBytes (chunkEntries es [])
          (es.foldl SSTableWriter.Add (NewSSTableWriter bpk)).bloomFilter := by
  obtain ⟨h1, h2, h3, h4⟩ := sstw_flushBlock_final es bpk
  cases hob : (es.foldl SSTableWriter.Add (NewSSTableWriter bpk)).bloomFilter with
  | none =>
    unfold SSTableWriter.Finish sstFileBytes
    rw [h1, h2, h3, h4, hob]
    rfl
  | some bf =>
    unfold SSTableWriter.Finish sstFileBytes
    rw [h1, h2, h3, h4, hob]
    rfl

/-! ## SSTable: opening a finished file -/

theorem encode_length (bf : BloomFilter) : bf.Encode.length = 20 + bf.bits.length := by
  simp only [BloomFilter.Encode, List.length_append, leBytes_length]

theorem indexBytes_length (idx : List (List Nat × Nat × Nat)) :
    (indexBytes idx).length = 4 + ((idx.map encIndexEntry).flatten).length := by
  simp only [indexBytes, List.length_append, leBytes_length]

theorem indexOfBlocks_length : ∀ (Cs : List (List TableEntry)) (off : Nat),
    (indexOfBlocks Cs off).length = Cs.length := by
  intro Cs
  induction Cs with
  | nil => intro off; rfl
  | cons B Bs ih =>
    intro off
    rw [indexOfBlocks_cons, List.length_cons, List.length_cons, ih]

theorem indexOfBlocks_mem : ∀ (Cs : List (List TableEntry)) (off : Nat)
    (ent : List Nat × Nat × Nat), ent ∈ indexOfBlocks Cs off →
    (∃ B ∈ Cs, ent.1 = (B.headD noEntry).key) ∧
    off ≤ ent.2.1 ∧ ent.2.1 + ent.2.2 ≤ off + (outBytes Cs).length := by
  intro Cs
  induction Cs with
  | nil =>
    intro off ent hent
    simp [indexOfBlocks] at hent
  | cons B Bs ih =>
    intro off ent hent
    rw [indexOfBlocks_cons, List.mem_cons] at hent
    rcases hent with hent | hent
    · subst hent
      refine ⟨⟨B, by simp, rfl⟩, le_refl _, ?_⟩
      simp only [outBytes_cons, List.length_append, blockOut_length]
      omega
    · obtain ⟨⟨B2, hB2, hkey⟩, hlo, hhi⟩ := ih (off + ((blockBytes B).length + 4)) ent hent
      refine ⟨⟨B2, by simp [hB2], hkey⟩, by omega, ?_⟩
      simp only [outBytes_cons, List.length_append, blockOut_length]
      omega

theorem parseIndexEntries_encodes : ∀ (idx : List (List Nat × Nat × Nat)),
    (∀ ent ∈ idx, ent.1.length < 2 ^ 32 ∧ ent.2.1 < 2 ^ 64 ∧ ent.2.2 < 2 ^ 64) →
    parseIndexEntries idx.length ((idx.map encIndexEntry).flatten) = some idx := by
  intro idx
  induction idx with
  | nil => intro _; rfl
  | cons ent rest ih =>
    intro hb
    obtain ⟨hk, ho, hs⟩ := hb ent (by simp)
    have hk' : ent.1.length < 256 ^ 4 := by
      have : (256 : Nat) ^ 4 = 2 ^ 32 := by norm_num
      omega
    have ho' : ent.2.1 < 256 ^ 8 := by
      have : (256 : Nat) ^ 8 = 2 ^ 64 := by norm_num
      omega
    have hs' : ent.2.2 < 256 ^ 8 := by
      have : (256 : Nat) ^ 8 = 2 ^ 64 := by norm_num
      omega
    have hbytes : ((ent :: rest).map encIndexEntry).flatten
        = leBytes 4 ent.1.length ++ (ent.1 ++ (leBytes 8 ent.2.1 ++ (leBytes 8 ent.2.2 ++
            (rest.map encIndexEntry).flatten))) := by
      simp [encIndexEntry, List.append_assoc]
    rw [List.length_cons, hbytes]
    have ht4 : (leBytes 4 ent.1.length ++ (ent.1 ++ (leBytes 8 ent.2.1 ++ (leBytes 8 ent.2.2 ++
        (rest.map encIndexEntry).flatten)))).take 4 = leBytes 4 ent.1.length :=
      take_append_of_eq_length _ _ (leBytes_length 4 _)
    have hd4 : (leBytes 4 ent.1.length ++ (ent.1 ++ (leBytes 8 ent.2.1 ++ (leBytes 8 ent.2.2 ++
        (rest.map encIndexEntry).flatten)))).drop 4
        = ent.1 ++ (leBytes 8 ent.2.1 ++ (leBytes 8 ent.2.2 ++
            (rest.map encIndexEntry).flatten)) :=
      drop_append_of_eq_length _ _ (leBytes_length 4 _)
    simp only [parseIndexEntries]
    rw [ht4, hd4, leVal_leBytes_of_lt hk',
      @drop_append_of_eq_length ent.1.length _ _ rfl,
      @take_append_of_eq_length ent.1.length _ _ rfl,
      drop_append_of_eq_length _ _ (leBytes_length 8 _),
      take_append_of_eq_length _ _ (leBytes_length 8 _),
      drop_append_of_eq_length _ _ (leBytes_length 8 _),
      take_append_of_eq_length _ _ (leBytes_length 8 _),
      leVal_leBytes_of_lt ho', leVal_leBytes_of_lt hs',
      ih (fun x hx => hb x (by simp [hx]))]
    rw [if_neg (by
      simp only [List.length_append, leBytes_length]
      omega)]
    rw [if_neg (by
      simp only [List.length_append, leBytes_length]
      omega)]
    rw [if_neg (by
      simp only [List.length_append, leBytes_length]
      omega)]

theorem open_layout (F I BB : List Nat) (idx : List (List Nat × Nat × Nat))
    (ob : Option BloomFilter)
    (hI : I = indexBytes idx)
    (hidxn : idx.length < 2 ^ 32)
    (hb : ∀ ent ∈ idx, ent.1.length < 2 ^ 32 ∧ ent.2.1 < 2 ^ 64 ∧ ent.2.2 < 2 ^ 64)
    (hBB : BB = bloomBlock ob)
    (hwfb : ∀ bf, ob = some bf → bf.WF)
    (hlen : F.length + I.length + BB.length + 40 < 2 ^ 64) :
    OpenSSTable (F ++ (I ++ (BB ++ footerBytes F.length I.length BB.length)))
      = some { file := F ++ (I ++ (BB ++ footerBytes F.length I.length BB.length)),
               index := idx, bloomFilter := ob } := by
  have h2564 : (256 : Nat) ^ 4 = 2 ^ 32 := by norm_num
  have h2568 : (256 : Nat) ^ 8 = 2 ^ 64 := by norm_num
  set FT := footerBytes F.length I.length BB.length with hFT
  have hFTe : FT = leBytes 8 F.length ++ (leBytes 8 I.length ++
      (leBytes 8 (F.length + I.length) ++ (leBytes 8 BB.length ++ leBytes 8 SSTableMagic))) :=
    rfl
  have e0 : FT.take 8 = leBytes 8 F.length := by
    rw [hFTe]
    exact take_append_of_eq_length _ _ (leBytes_length 8 _)
  have e8 : FT.drop 8 = leBytes 8 I.length ++
      (leBytes 8 (F.length + I.length) ++ (leBytes 8 BB.length ++ leBytes 8 SSTableMagic)) := by
    rw [hFTe]
    exact drop_append_of_eq_length _ _ (leBytes_length 8 _)
  have e8t : (leBytes 8 I.length ++
      (leBytes 8 (F.length + I.length) ++ (leBytes 8 BB.length ++ leBytes 8 SSTableMagic))).take 8
      = leBytes 8 I.length := take_append_of_eq_length _ _ (leBytes_length 8 _)
  have e16 : FT.drop 16 = leBytes 8 (F.length + I.length) ++
      (leBytes 8 BB.length ++ leBytes 8 SSTableMagic) := by
    rw [show (16 : Nat) = 8 + 8 from rfl, drop_add, e8]
    exact drop_append_of_eq_length _ _ (leBytes_length 8 _)
  have e16t : (leBytes 8 (F.length + I.length) ++
      (leBytes 8 BB.length ++ leBytes 8 SSTableMagic)).take 8
      = leBytes 8 (F.length + I.length) := take_append_of_eq_length _ _ (leBytes_length 8 _)
  have e24 : FT.drop 24 = leBytes 8 BB.length ++ leBytes 8 SSTableMagic := by
    rw [show (24 : Nat) = 16 + 8 from rfl, drop_add, e16]
    exact drop_append_of_eq_length _ _ (leBytes_length 8 _)
  have e24t : (leBytes 8 BB.length ++ leBytes 8 SSTableMagic).take 8 = leBytes 8 BB.length :=
    take_append_of_eq_length _ _ (leBytes_length 8 _)
  have e32 : FT.drop 32 = leBytes 8 SSTableMagic := by
    rw [show (32 : Nat) = 24 + 8 from rfl, drop_add, e24]
    exact drop_append_of_eq_length _ _ (leBytes_length 8 _)
  have e32t : (leBytes 8 SSTableMagic).take 8 = leBytes 8 SSTableMagic :=
    List.take_of_length_le (le_of_eq (leBytes_length 8 _))
  have vF : leVal (leBytes 8 F.length) = F.length :=
    leVal_leBytes_of_lt (by omega)
  have vI : leVal (leBytes 8 I.length) = I.length :=
    leVal_leBytes_of_lt (by omega)
  have vC : leVal (leBytes 8 (F.length + I.length)) = F.length + I.length :=
    leVal_leBytes_of_lt (by omega)
  have vB : leVal (leBytes 8 BB.length) = BB.length :=
    leVal_leBytes_of_lt (by omega)
  have vM : leVal (leBytes 8 SSTableMagic) = SSTableMagic :=
    leVal_leBytes_of_lt (by norm_num [SSTableMagic])
  have hflen : (F ++ (I ++ (BB ++ FT))).length = F.length + I.length + BB.length + 40 := by
    rw [hFTe]
    simp only [List.length_append, leBytes_length]
    omega
  have hm40 : (F ++ (I ++ (BB ++ FT))).length - 40 = F.length + I.length + BB.length := by
    omega
  have hdropF : (F ++ (I ++ (BB ++ FT))).drop (F.length + I.length + BB.length) = FT := by
    rw [show F ++ (I ++ (BB ++ FT)) = (F ++ (I ++ BB)) ++ FT from by
      simp [List.append_assoc]]
    exact drop_append_of_eq_length _ _ (by simp only [List.length_append]; omega)
  have hiOffDrop : (F ++ (I ++ (BB ++ FT))).drop F.length = I ++ (BB ++ FT) :=
    drop_append_of_eq_length _ _ rfl
  have hiSlice : (I ++ (BB ++ FT)).take I.length = I :=
    take_append_of_eq_length _ _ rfl
  have hbloomDrop : (F ++ (I ++ (BB ++ FT))).drop (F.length + I.length) = BB ++ FT := by
    rw [show F ++ (I ++ (BB ++ FT)) = (F ++ I) ++ (BB ++ FT) from by
      simp [List.append_assoc]]
    exact drop_append_of_eq_length _ _ (by simp only [List.length_append])
  have hbloomTake : (BB ++ FT).take BB.length = BB :=
    take_append_of_eq_length _ _ rfl
  have hreadIndex : readIndex (F ++ (I ++ (BB ++ FT))) F.length I.length = some idx := by
    unfold readIndex
    rw [hiOffDrop, hiSlice, hI]
    rw [if_neg (by rw [indexBytes_length]; omega)]
    have ht : (indexBytes idx).take 4 = leBytes 4 idx.length := by
      unfold indexBytes
      exact take_append_of_eq_length _ _ (leBytes_length 4 _)
    have hd : (indexBytes idx).drop 4 = (idx.map encIndexEntry).flatten := by
      unfold indexBytes
      exact drop_append_of_eq_length _ _ (leBytes_length 4 _)
    rw [ht, hd, leVal_leBytes_of_lt (by omega)]
    exact parseIndexEntries_encodes idx hb
  have hge40 : 40 ≤ (F ++ (I ++ (BB ++ FT))).length := by omega
  unfold OpenSSTable
  rw [hm40, hdropF, e32, e32t, vM, e0, vF, e8, e8t, vI, e16, e16t, vC, e24, e24t, vB]
  rw [if_pos ⟨hge40, rfl⟩]
  cases ob with
  | none =>
    have hBB0 : BB = [] := hBB
    rw [if_neg (by rw [hBB0]; simp)]
    rw [hreadIndex]
  | some bf =>
    have hBBe : BB = bf.Encode := hBB
    rw [if_pos (by rw [hBBe, encode_length]; omega)]
    rw [hbloomDrop, hbloomTake, hBBe, encode_decode_roundtrip (hwfb bf rfl)]
    rw [← hBBe, hreadIndex]

theorem sstFileBytes_length (Cs : List (List TableEntry)) (ob : Option BloomFilter) :
    (sstFileBytes Cs ob).length = (outBytes Cs).length +
      (indexBytes (indexOfBlocks Cs 0)).length + (bloomBlock ob).length + 40 := by
  simp only [sstFileBytes, List.length_append, leBytes_length]
  omega

theorem open_sstFile (Cs : List (List TableEntry)) (ob : Option BloomFilter)
    (hwfb : ∀ bf, ob = some bf → bf.WF)
    (hn : Cs.length < 2 ^ 32)
    (hkeys : ∀ B ∈ Cs, (B.headD noEntry).key.length < 2 ^ 32)
    (hlen : (sstFileBytes Cs ob).length < 2 ^ 64) :
    OpenSSTable (sstFileBytes Cs ob)
      = some { file := sstFileBytes Cs ob, index := indexOfBlocks Cs 0,
               bloomFilter := ob } := by
  have hflen2 := sstFileBytes_length Cs ob
  have heq : sstFileBytes Cs ob = outBytes Cs ++ (indexBytes (indexOfBlocks Cs 0) ++
      (bloomBlock ob ++ footerBytes (outBytes Cs).length
        (indexBytes (indexOfBlocks Cs 0)).length (bloomBlock ob).length)) := rfl
  rw [heq]
  refine open_layout _ _ _ _ _ rfl ?_ ?_ rfl hwfb ?_
  · rw [indexOfBlocks_length]
    exact hn
  · intro ent hent
    obtain ⟨⟨B, hB, hkey⟩, hlo, hhi⟩ := indexOfBlocks_mem Cs 0 ent hent
    refine ⟨by rw [hkey]; exact hkeys B hB, by omega, by omega⟩
  · omega

/-! ## SSTable: locating data blocks through the index -/

theorem slice_block_aux : ∀ (Cs : List (List TableEntry)) (pre post : List Nat) (i : Nat),
    i < Cs.length →
    ((pre ++ (outBytes Cs ++ post)).drop
        ((indexOfBlocks Cs pre.length).getD i ([], 0, 0)).2.1).take
        ((indexOfBlocks Cs pre.length).getD i ([], 0, 0)).2.2
      = blockOut (Cs.getD i []) ∧
    ((indexOfBlocks Cs pre.length).getD i ([], 0, 0)).1
      = ((Cs.getD i []).headD noEntry).key ∧
    ((indexOfBlocks Cs pre.length).getD i ([], 0, 0)).2.2
      = (blockBytes (Cs.getD i [])).length + 4 := by
  intro Cs
  induction Cs with
  | nil =>
    intro pre post i hi
    simp at hi
  | cons B Bs ih =>
    intro pre post i hi
    cases i with
    | zero =>
      rw [indexOfBlocks_cons]
      refine ⟨?_, rfl, rfl⟩
      show ((pre ++ (outBytes (B :: Bs) ++ post)).drop pre.length).take
        ((blockBytes B).length + 4) = blockOut B
      rw [drop_append_of_eq_length _ _ rfl, outBytes_cons, List.append_assoc]
      exact take_append_of_eq_length _ _ (blockOut_length B)
    | succ j =>
      have hj : j < Bs.length := by
        simp only [List.length_cons] at hi
        omega
      obtain ⟨c1, c2, c3⟩ := ih (pre ++ blockOut B) post j hj
      have hplen : (pre ++ blockOut B).length = pre.length + ((blockBytes B).length + 4) := by
        rw [List.length_append, blockOut_length]
      have hlist : (pre ++ blockOut B) ++ (outBytes Bs ++ post)
          = pre ++ (outBytes (B :: Bs) ++ post) := by
        rw [outBytes_cons]
        simp [List.append_assoc]
      rw [hplen, hlist] at c1
      rw [hplen] at c2 c3
      rw [indexOfBlocks_cons]
      exact ⟨c1, c2, c3⟩

theorem slice_block (Cs : List (List TableEntry)) (post : List Nat) (i : Nat)
    (hi : i < Cs.length) :
    ((outBytes Cs ++ post).drop ((indexOfBlocks Cs 0).getD i ([], 0, 0)).2.1).take
        ((indexOfBlocks Cs 0).getD i ([], 0, 0)).2.2 = blockOut (Cs.getD i []) ∧
    ((indexOfBlocks Cs 0).getD i ([], 0, 0)).1 = ((Cs.getD i []).headD noEntry).key ∧
    ((indexOfBlocks Cs 0).getD i ([], 0, 0)).2.2 = (blockBytes (Cs.getD i [])).length + 4 := by
  have h := slice_block_aux Cs [] post i hi
  rw [List.nil_append] at h
  exact h

/-! ## SSTable: scanning a block for a key -/

theorem searchEntries_finds : ∀ (B : List TableEntry) (fuel : Nat) (e : TableEntry),
    B.length < fuel → e ∈ B →
    (∀ x ∈ B, x.key.length < 2 ^ 32 ∧ x.value.length < 2 ^ 32) →
    List.Pairwise (fun a b => compareBytes a.key b.key = -1) B →
    searchEntries fuel (blockBytes B) e.key = (e.value, e.deleted, true) := by
  intro B
  induction B with
  | nil =>
    intro fuel e _ hmem
    simp at hmem
  | cons e' B' ih =>
    intro fuel e hfuel hmem hb hsorted
    cases fuel with
    | zero => simp at hfuel
    | succ f =>
      obtain ⟨hkl, hvl⟩ := hb e' (by simp)
      have hkl' : e'.key.length < 256 ^ 4 := by
        have : (256 : Nat) ^ 4 = 2 ^ 32 := by norm_num
        omega
      have hvl' : e'.value.length < 256 ^ 4 := by
        have : (256 : Nat) ^ 4 = 2 ^ 32 := by norm_num
        omega
      have hbs : blockBytes (e' :: B') = leBytes 4 e'.key.length ++
          (leBytes 4 e'.value.length ++ ((if e'.deleted then 1 else 0) ::
            (e'.key ++ (e'.value ++ blockBytes B')))) := by
        rw [blockBytes_cons]
        simp [encEntry, List.append_assoc]
      set R := blockBytes B' with hR
      set bs := leBytes 4 e'.key.length ++
          (leBytes 4 e'.value.length ++ ((if e'.deleted then 1 else 0) ::
            (e'.key ++ (e'.value ++ R)))) with hbsdef
      have hlenbs : bs.length = 9 + (e'.key.length + (e'.value.length + R.length)) := by
        rw [hbsdef]
        simp only [List.length_append, List.length_cons, leBytes_length]
        omega
      have t4 : bs.take 4 = leBytes 4 e'.key.length := by
        rw [hbsdef]
        exact take_append_of_eq_length _ _ (leBytes_length 4 _)
      have d4 : bs.drop 4 = leBytes 4 e'.value.length ++
          ((if e'.deleted then 1 else 0) :: (e'.key ++ (e'.value ++ R))) := by
        rw [hbsdef]
        exact drop_append_of_eq_length _ _ (leBytes_length 4 _)
      have t4b : (leBytes 4 e'.value.length ++
          ((if e'.deleted then 1 else 0) :: (e'.key ++ (e'.value ++ R)))).take 4
          = leBytes 4 e'.value.length :=
        take_append_of_eq_length _ _ (leBytes_length 4 _)
      have d8 : bs.drop 8 = (if e'.deleted then 1 else 0) :: (e'.key ++ (e'.value ++ R)) := by
        rw [show (8 : Nat) = 4 + 4 from rfl, drop_add, d4]
        exact drop_append_of_eq_length _ _ (leBytes_length 4 _)
      have d9 : bs.drop 9 = e'.key ++ (e'.value ++ R) := by
        rw [show (9 : Nat) = 8 + 1 from rfl, drop_add, d8]
        rfl
      have hgd : bs.getD 8 0 = (if e'.deleted then 1 else 0) := by
        have h0 := (getD_drop bs 8 0).symm
        rw [show bs.getD 8 0 = bs.getD (8 + 0) 0 from rfl, ← getD_drop, d8]
        rfl
      rw [hbs]
      simp only [searchEntries]
      rw [t4, leVal_leBytes_of_lt hkl', d4, t4b, leVal_leBytes_of_lt hvl', d9,
        @take_append_of_eq_length e'.key.length _ _ rfl,
        @drop_append_of_eq_length e'.key.length _ _ rfl, hgd]
      rw [if_neg (by rw [hlenbs]; omega), if_neg (by rw [hlenbs]; omega)]
      rw [if_neg (by
        rintro ⟨h1, h2⟩
        simp only [List.length_append] at h2
        omega)]
      rw [if_neg (by
        rintro ⟨h1, h2⟩
        simp only [List.length_append] at h2
        omega)]
      rcases List.mem_cons.mp hmem with he | he
      · subst he
        rw [if_pos (compareBytes_self _)]
        rw [@take_append_of_eq_length e.value.length _ _ rfl]
        cases hd : e.deleted <;> simp [hd]
      · have hlt : compareBytes e'.key e.key = -1 :=
          (List.pairwise_cons.mp hsorted).1 e he
        rw [hlt]
        rw [if_neg (by decide), if_neg (by decide)]
        rw [@drop_append_of_eq_length e'.value.length _ _ rfl]
        exact ih f e (by simp only [List.length_cons] at hfuel; omega) he
          (fun x hx => hb x (by simp [hx])) (List.pairwise_cons.mp hsorted).2

/-! ## SSTable: `sort.Search` and `findBlock` -/

theorem sortSearchAux_cut (f : Nat → Bool) (p n : Nat)
    (hf : ∀ i, i < n → (f i = true ↔ p < i)) :
    ∀ (fuel i j : Nat), j - i ≤ fuel → i ≤ p + 1 → p + 1 ≤ j → j ≤ n →
    sortSearchAux f fuel i j = p + 1 := by
  intro fuel
  induction fuel with
  | zero =>
    intro i j h1 h2 h3 h4
    simp only [sortSearchAux]
    omega
  | succ fu ih =>
    intro i j h1 h2 h3 h4
    simp only [sortSearchAux]
    by_cases hij : i < j
    · rw [if_pos hij]
      by_cases hfh : f ((i + j) / 2) = true
      · have hp : p < (i + j) / 2 := (hf _ (by omega)).mp hfh
        rw [if_neg (by simp [hfh])]
        exact ih i ((i + j) / 2) (by omega) h2 (by omega) (by omega)
      · have hp : ¬ p < (i + j) / 2 := fun hc => hfh ((hf _ (by omega)).mpr hc)
        rw [if_pos (by simp [hfh])]
        exact ih ((i + j) / 2 + 1) j (by omega) (by omega) h3 h4
    · rw [if_neg hij]
      omega

theorem headD_mem_entry {B : List TableEntry} (h : B ≠ []) : B.headD noEntry ∈ B := by
  cases B with
  | nil => exact absurd rfl h
  | cons b bs => simp

theorem head_eq_or_lt {B : List TableEntry}
    (hB : List.Pairwise (fun a b => compareBytes a.key b.key = -1) B)
    {e : TableEntry} (he : e ∈ B) :
    B.headD noEntry = e ∨ compareBytes (B.headD noEntry).key e.key = -1 := by
  cases B with
  | nil => simp at he
  | cons b bs =>
    rcases List.mem_cons.mp he with h | h
    · exact Or.inl h.symm
    · exact Or.inr ((List.pairwise_cons.mp hB).1 e h)

theorem block_key_facts (Cs : List (List TableEntry))
    (hne : ∀ B ∈ Cs, B ≠ [])
    (hsorted : List.Pairwise (fun a b => compareBytes a.key b.key = -1) Cs.flatten)
    (e : TableEntry) (p : Nat) (hp : p < Cs.length) (hep : e ∈ Cs.getD p []) :
    (∀ i, i < Cs.length → i ≤ p →
      ¬ 0 < compareBytes ((Cs.getD i []).headD noEntry).key e.key) ∧
    (∀ i, i < Cs.length → p < i →
      compareBytes ((Cs.getD i []).headD noEntry).key e.key = 1) := by
  obtain ⟨hin, hcross⟩ := List.pairwise_flatten.mp hsorted
  have hcrossG := List.pairwise_iff_getElem.mp hcross
  have hy : e ∈ Cs[p] := by
    rw [← List.getD_eq_getElem Cs [] hp]
    exact hep
  constructor
  · intro i hi hip
    have hBi : Cs.getD i [] ∈ Cs := by
      rw [List.getD_eq_getElem Cs [] hi]
      exact List.getElem_mem hi
    rcases Nat.lt_or_ge i p with hlt | hge
    · have hx : (Cs.getD i []).headD noEntry ∈ Cs[i] := by
        rw [← List.getD_eq_getElem Cs [] hi]
        exact headD_mem_entry (hne _ hBi)
      have hc := hcrossG i p hi hp hlt _ hx e hy
      intro habs
      rw [hc] at habs
      exact absurd habs (by decide)
    · have hipeq : i = p := le_antisymm hip hge
      subst hipeq
      rcases head_eq_or_lt (hin _ hBi) hep with hh | hh
      · rw [hh]
        intro habs
        rw [compareBytes_self] at habs
        exact absurd habs (by decide)
      · intro habs
        rw [hh] at habs
        exact absurd habs (by decide)
  · intro i hi hpi
    have hBi : Cs.getD i [] ∈ Cs := by
      rw [List.getD_eq_getElem Cs [] hi]
      exact List.getElem_mem hi
    have hx : (Cs.getD i []).headD noEntry ∈ Cs[i] := by
      rw [← List.getD_eq_getElem Cs [] hi]
      exact headD_mem_entry (hne _ hBi)
    exact compareBytes_gt_of_lt (hcrossG p i hp hi hpi e hy _ hx)

theorem sst_get_finds (Cs : List (List TableEntry)) (post : List Nat)
    (ob : Option BloomFilter) (e : TableEntry) (p : Nat)
    (hp : p < Cs.length) (hep : e ∈ Cs.getD p [])
    (hne : ∀ B ∈ Cs, B ≠ [])
    (hbounds : ∀ x ∈ Cs.flatten, x.key.length < 2 ^ 32 ∧ x.value.length < 2 ^ 32)
    (hsorted : List.Pairwise (fun a b => compareBytes a.key b.key = -1) Cs.flatten) :
    SSTableReader.Get
      { file := outBytes Cs ++ post, index := indexOfBlocks Cs 0, bloomFilter := ob }
      e.key = (e.value, e.deleted, true) := by
  obtain ⟨hle, hgt⟩ := block_key_facts Cs hne hsorted e p hp hep
  obtain ⟨hin, _hcross⟩ := List.pairwise_flatten.mp hsorted
  have hBmem : Cs.getD p [] ∈ Cs := by
    rw [List.getD_eq_getElem Cs [] hp]
    exact List.getElem_mem hp
  have hA : ∀ i, i < Cs.length →
      ((fun i => decide (compareBytes ((indexOfBlocks Cs 0).getD i ([], 0, 0)).1 e.key > 0)) i
        = true ↔ p < i) := by
    intro i hi
    have hfk := (slice_block Cs post i hi).2.1
    simp only [hfk, decide_eq_true_eq]
    constructor
    · intro hc
      by_contra hnp
      exact hle i hi (by omega) hc
    · intro hpi
      rw [hgt i hi hpi]
      decide
  have hss : sortSearch (indexOfBlocks Cs 0).length
      (fun i => decide (compareBytes ((indexOfBlocks Cs 0).getD i ([], 0, 0)).1 e.key > 0))
      = p + 1 := by
    rw [indexOfBlocks_length]
    unfold sortSearch
    exact sortSearchAux_cut _ p Cs.length hA Cs.length 0 Cs.length (by omega) (by omega)
      (by omega) (le_refl _)
  have hfb : SSTableReader.findBlock
      { file := outBytes Cs ++ post, index := indexOfBlocks Cs 0, bloomFilter := ob }
      e.key = some p := by
    unfold SSTableReader.findBlock
    dsimp only
    rw [if_neg (by rw [indexOfBlocks_length]; omega), hss, if_neg (by omega)]
    simp
  obtain ⟨s1, s2, s3⟩ := slice_block Cs post p hp
  have hsb : SSTableReader.searchBlock
      { file := outBytes Cs ++ post, index := indexOfBlocks Cs 0, bloomFilter := ob }
      p e.key = (e.value, e.deleted, true) := by
    unfold SSTableReader.searchBlock
    dsimp only
    have htl := congrArg List.length s1
    rw [List.length_take, blockOut_length, ← s3] at htl
    rw [if_neg (by omega)]
    rw [if_neg (by omega)]
    rw [s1, s3]
    simp only [Nat.add_sub_cancel]
    rw [show blockOut (Cs.getD p []) = blockBytes (Cs.getD p []) ++
      leBytes 4 (crc32 (blockBytes (Cs.getD p []))) from rfl]
    rw [take_append_of_eq_length _ _ rfl, drop_append_of_eq_length _ _ rfl]
    rw [List.take_of_length_le (le_of_eq (leBytes_length 4 _))]
    rw [leVal_leBytes_of_lt (by
      have hc := crc32_lt (blockBytes (Cs.getD p []))
      have h4 : (256 : Nat) ^ 4 = 2 ^ 32 := by norm_num
      omega)]
    rw [if_neg (fun hcc => hcc rfl)]
    apply searchEntries_finds (Cs.getD p []) _ e ?_ hep ?_ ?_
    · have := blockBytes_length_ge (Cs.getD p [])
      omega
    · intro x hx
      exact hbounds x (List.mem_flatten.mpr ⟨_, hBmem, hx⟩)
    · exact hin _ hBmem
  unfold SSTableReader.Get
  rw [hfb]
  exact hsb

/-! ## SSTable: iterator -/

theorem loadBlock_some (r : SSTableReader) (Cs : List (List TableEntry)) (post : List Nat)
    (hrf : r.file = outBytes Cs ++ post) (hri : r.index = indexOfBlocks Cs 0)
    (i : Nat) (hi : i < Cs.length) :
    loadBlock r (Int.ofNat i) = some (blockBytes (Cs.getD i [])) := by
  obtain ⟨s1, s2, s3⟩ := slice_block Cs post i hi
  unfold loadBlock
  rw [hrf, hri]
  rw [if_pos ⟨by rw [indexOfBlocks_length]; exact Int.ofNat_lt.mpr hi, Int.ofNat_nonneg i⟩]
  rw [show (Int.ofNat i).toNat = i from rfl]
  have htl := congrArg List.length s1
  rw [List.length_take, blockOut_length, ← s3] at htl
  rw [if_neg (by omega), if_neg (by omega)]
  rw [s1, s3]
  simp only [Nat.add_sub_cancel]
  rw [show blockOut (Cs.getD i []) = blockBytes (Cs.getD i []) ++
    leBytes 4 (crc32 (blockBytes (Cs.getD i []))) from rfl]
  rw [take_append_of_eq_length _ _ rfl, drop_append_of_eq_length _ _ rfl]
  rw [List.take_of_length_le (le_of_eq (leBytes_length 4 _))]
  rw [leVal_leBytes_of_lt (by
    have hc := crc32_lt (blockBytes (Cs.getD i []))
    have h4 : (256 : Nat) ^ 4 = 2 ^ 32 := by norm_num
    omega)]
  rw [if_neg (fun hcc => hcc rfl)]

theorem loadBlock_none (r : SSTableReader) (Cs : List (List TableEntry))
    (hri : r.index = indexOfBlocks Cs 0) (n : Nat) (hn : Cs.length ≤ n) :
    loadBlock r (Int.ofNat n) = none := by
  unfold loadBlock
  rw [hri]
  rw [if_neg (by
    rintro ⟨h1, _h2⟩
    rw [indexOfBlocks_length] at h1
    have : n < Cs.length := Int.ofNat_lt.mp h1
    omega)]

theorem itReadEntry_cons (st : SSTableIterator) (e' : TableEntry) (B' : List TableEntry)
    (hkl : e'.key.length < 2 ^ 32) (hvl : e'.value.length < 2 ^ 32) :
    itReadEntry st (blockBytes (e' :: B'))
      = { st with key := e'.key, value := e'.value, deleted := e'.deleted,
                  blockRest := some (blockBytes B'), valid := true } := by
  have hkl' : e'.key.length < 256 ^ 4 := by
    have : (256 : Nat) ^ 4 = 2 ^ 32 := by norm_num
    omega
  have hvl' : e'.value.length < 256 ^ 4 := by
    have : (256 : Nat) ^ 4 = 2 ^ 32 := by norm_num
    omega
  have hbs : blockBytes (e' :: B') = leBytes 4 e'.key.length ++
      (leBytes 4 e'.value.length ++ ((if e'.deleted then 1 else 0) ::
        (e'.key ++ (e'.value ++ blockBytes B')))) := by
    rw [blockBytes_cons]
    simp [encEntry, List.append_assoc]
  set R := blockBytes B' with hR
  set bs := leBytes 4 e'.key.length ++
      (leBytes 4 e'.value.length ++ ((if e'.deleted then 1 else 0) ::
        (e'.key ++ (e'.value ++ R)))) with hbsdef
  have hlenbs : bs.length = 9 + (e'.key.length + (e'.value.length + R.length)) := by
    rw [hbsdef]
    simp only [List.length_append, List.length_cons, leBytes_length]
    omega
  have t4 : bs.take 4 = leBytes 4 e'.key.length := by
    rw [hbsdef]
    exact take_append_of_eq_length _ _ (leBytes_length 4 _)
  have d4 : bs.drop 4 = leBytes 4 e'.value.length ++
      ((if e'.deleted then 1 else 0) :: (e'.key ++ (e'.value ++ R))) := by
    rw [hbsdef]
    exact drop_append_of_eq_length _ _ (leBytes_length 4 _)
  have t4b : (leBytes 4 e'.value.length ++
      ((if e'.deleted then 1 else 0) :: (e'.key ++ (e'.value ++ R)))).take 4
      = leBytes 4 e'.value.length :=
    take_append_of_eq_length _ _ (leBytes_length 4 _)
  have d8 : bs.drop 8 = (if e'.deleted then 1 else 0) :: (e'.key ++ (e'.value ++ R)) := by
    rw [show (8 : Nat) = 4 + 4 from rfl, drop_add, d4]
    exact drop_append_of_eq_length _ _ (leBytes_length 4 _)
  have d9 : bs.drop 9 = e'.key ++ (e'.value ++ R) := by
    rw [show (9 : Nat) = 8 + 1 from rfl, drop_add, d8]
    rfl
  have hgd : bs.getD 8 0 = (if e'.deleted then 1 else 0) := by
    rw [show bs.getD 8 0 = bs.getD (8 + 0) 0 from rfl, ← getD_drop, d8]
    rfl
  rw [hbs]
  unfold itReadEntry
  rw [t4, leVal_leBytes_of_lt hkl', d4, t4b, leVal_leBytes_of_lt hvl', d9,
    @take_append_of_eq_length e'.key.length _ _ rfl,
    @drop_append_of_eq_length e'.key.length _ _ rfl, hgd]
  rw [if_neg (by rw [hlenbs]; omega)]
  rw [if_neg (by
    rintro ⟨h1, h2⟩
    simp only [List.length_append] at h2
    omega)]
  rw [if_neg (by
    rintro ⟨h1, h2⟩
    simp only [List.length_append] at h2
    omega)]
  rw [@take_append_of_eq_length e'.value.length _ _ rfl,
    @drop_append_of_eq_length e'.value.length _ _ rfl]
  rw [show ((if e'.deleted then (1 : Nat) else 0) == 1) = e'.deleted from by
    cases e'.deleted <;> rfl]

theorem getD_of_drop_cons {α : Type} (l : List (List α)) (i : Nat) (B : List α)
    (Bs : List (List α)) (h : l.drop i = B :: Bs) : l.getD i [] = B := by
  rw [List.getD_eq_getElem?_getD,
    show l[i]? = (l.drop i)[0]? from by rw [List.getElem?_drop, Nat.add_zero], h]
  simp

theorem itNext_mid (r : SSTableReader) (st : SSTableIterator) (e' : TableEntry)
    (B' : List TableEntry)
    (hrest : st.blockRest = some (blockBytes (e' :: B')))
    (hkl : e'.key.length < 2 ^ 32) (hvl : e'.value.length < 2 ^ 32) :
    itNext r st =
      { st with key := e'.key, value := e'.value, deleted := e'.deleted,
                blockRest := some (blockBytes B'), valid := true } := by
  unfold itNext
  rw [hrest]
  dsimp only
  rw [if_neg (by
    rw [blockBytes_cons]
    simp only [List.length_append, encEntry_length]
    omega)]
  exact itReadEntry_cons st e' B' hkl hvl

theorem itNext_nextblock (r : SSTableReader) (Cs : List (List TableEntry)) (post : List Nat)
    (hrf : r.file = outBytes Cs ++ post) (hri : r.index = indexOfBlocks Cs 0)
    (st : SSTableIterator) (i : Nat)
    (hrest : st.blockRest = some [])
    (hidx : st.blockIdx = Int.ofNat i)
    (hi1 : i + 1 < Cs.length)
    (e2 : TableEntry) (B2' : List TableEntry)
    (hB2 : Cs.getD (i + 1) [] = e2 :: B2')
    (hkl : e2.key.length < 2 ^ 32) (hvl : e2.value.length < 2 ^ 32) :
    itNext r st =
      { st with blockIdx := Int.ofNat (i + 1),
                key := e2.key, value := e2.value, deleted := e2.deleted,
                blockRest := some (blockBytes B2'), valid := true } := by
  unfold itNext
  rw [hrest]
  dsimp only
  rw [if_pos (show ([] : List Nat).length = 0 from rfl)]
  rw [hidx, show Int.ofNat i + 1 = Int.ofNat (i + 1) from rfl,
    loadBlock_some r Cs post hrf hri (i + 1) hi1, hB2]
  dsimp only
  rw [itReadEntry_cons _ e2 B2' hkl hvl]

theorem itNext_stop (r : SSTableReader) (Cs : List (List TableEntry))
    (hri : r.index = indexOfBlocks Cs 0) (st : SSTableIterator) (i : Nat)
    (hrest : st.blockRest = some [])
    (hidx : st.blockIdx = Int.ofNat i)
    (hi1 : Cs.length ≤ i + 1) :
    itNext r st = { st with blockIdx := Int.ofNat (i + 1), valid := false } := by
  unfold itNext
  rw [hrest]
  dsimp only
  rw [if_pos (show ([] : List Nat).length = 0 from rfl), hidx,
    show Int.ofNat i + 1 = Int.ofNat (i + 1) from rfl,
    loadBlock_none r Cs hri (i + 1) hi1]

theorem itCollect_invalid (r : SSTableReader) (fuel : Nat) (st : SSTableIterator)
    (h : st.valid = false) : itCollect r fuel st = [] := by
  cases fuel with
  | zero => rfl
  | succ f =>
    simp only [itCollect]
    rw [if_neg (by rw [h]; simp)]

theorem itCollect_run (r : SSTableReader) (Cs : List (List TableEntry)) (post : List Nat)
    (hrf : r.file = outBytes Cs ++ post) (hri : r.index = indexOfBlocks Cs 0)
    (hne : ∀ B ∈ Cs, B ≠ [])
    (hbounds : ∀ x ∈ Cs.flatten, x.key.length < 2 ^ 32 ∧ x.value.length < 2 ^ 32) :
    ∀ (fuel : Nat) (Bs : List (List TableEntry)) (B : List TableEntry) (i : Nat)
      (st : SSTableIterator),
      Cs.drop (i + 1) = Bs → i < Cs.length →
      st.blockRest = some (blockBytes B) → st.blockIdx = Int.ofNat i → st.valid = true →
      (∀ x ∈ B, x ∈ Cs.flatten) →
      B.length + Bs.flatten.length < fuel →
      itCollect r fuel st
        = { key := st.key, value := st.value, deleted := st.deleted } :: (B ++ Bs.flatten) := by
  intro fuel
  induction fuel with
  | zero =>
    intro Bs B i st _ _ _ _ _ _ hfuel
    omega
  | succ f ih =>
    intro Bs B i st hdrop hi hrest hidx hvalid hBmem hfuel
    simp only [itCollect]
    rw [if_pos hvalid]
    cases B with
    | cons e' B' =>
      obtain ⟨hkl, hvl⟩ := hbounds e' (hBmem e' (by simp))
      rw [itNext_mid r st e' B' hrest hkl hvl]
      rw [ih Bs B' i { st with key := e'.key, value := e'.value, deleted := e'.deleted, blockRest := some (blockBytes B'), valid := true } hdrop hi rfl hidx rfl (fun x hx => hBmem x (by simp [hx])) (by
        simp only [List.length_cons] at hfuel
        omega)]
      simp
    | nil =>
      cases hBsc : Bs with
      | nil =>
        subst hBsc
        have hlen := congrArg List.length hdrop
        simp only [List.length_drop, List.length_nil] at hlen
        rw [itNext_stop r Cs hri st i hrest hidx (by omega)]
        rw [itCollect_invalid r f _ rfl]
        simp
      | cons B2 Bs2 =>
        subst hBsc
        have hlen := congrArg List.length hdrop
        simp only [List.length_drop, List.length_cons] at hlen
        have hi1 : i + 1 < Cs.length := by omega
        have hB2get : Cs.getD (i + 1) [] = B2 := getD_of_drop_cons Cs (i + 1) B2 Bs2 hdrop
        have hB2mem : B2 ∈ Cs := List.mem_of_mem_drop (by rw [hdrop]; simp)
        have hBs2 : Cs.drop (i + 1 + 1) = Bs2 := by
          rw [← List.drop_drop, hdrop]
          rfl
        have hB2ne := hne B2 hB2mem
        cases hB2c : B2 with
        | nil => exact absurd hB2c hB2ne
        | cons e2 B2' =>
          have he2flat : ∀ x, x ∈ B2 → x ∈ Cs.flatten :=
            fun x hx => List.mem_flatten.mpr ⟨B2, hB2mem, hx⟩
          obtain ⟨hkl, hvl⟩ := hbounds e2 (he2flat e2 (by rw [hB2c]; simp))
          rw [itNext_nextblock r Cs post hrf hri st i hrest hidx hi1 e2 B2'
            (by rw [hB2get, hB2c]) hkl hvl]
          rw [ih Bs2 B2' (i + 1) { st with blockIdx := Int.ofNat (i + 1), key := e2.key, value := e2.value, deleted := e2.deleted, blockRest := some (blockBytes B2'), valid := true } hBs2 hi1 rfl rfl rfl
            (fun x hx => he2flat x (by rw [hB2c]; simp [hx])) (by
              simp only [List.flatten_cons, List.length_append, hB2c,
                List.length_cons, List.length_nil] at hfuel ⊢
              omega)]
          simp [hB2c]

theorem sstIterate_run (Cs : List (List TableEntry)) (post : List Nat)
    (r : SSTableReader)
    (hrf : r.file = outBytes Cs ++ post) (hri : r.index = indexOfBlocks Cs 0)
    (hne : ∀ B ∈ Cs, B ≠ [])
    (hbounds : ∀ x ∈ Cs.flatten, x.key.length < 2 ^ 32 ∧ x.value.length < 2 ^ 32) :
    sstIterate r (Cs.flatten.length + 1) = Cs.flatten := by
  cases Cs with
  | nil =>
    have hstart : itNext r itInit = { itInit with blockIdx := Int.ofNat 0, valid := false } := by
      unfold itNext itInit
      dsimp only
      rw [show (-1 : Int) + 1 = Int.ofNat 0 from rfl, loadBlock_none r [] hri 0 (by simp)]
    unfold sstIterate
    rw [hstart, itCollect_invalid r _ _ rfl]
    rfl
  | cons B1 Cs' =>
    have hB1ne : B1 ≠ [] := hne B1 (by simp)
    cases hB1c : B1 with
    | nil => exact absurd hB1c hB1ne
    | cons e1 B1' =>
      subst hB1c
      have he1mem : e1 ∈ ((e1 :: B1') :: Cs').flatten := by simp
      obtain ⟨hkl1, hvl1⟩ := hbounds e1 he1mem
      have hget0 : ((e1 :: B1') :: Cs').getD 0 [] = e1 :: B1' := rfl
      have hstart : itNext r itInit =
          { itInit with blockIdx := Int.ofNat 0,
                        key := e1.key, value := e1.value, deleted := e1.deleted,
                        blockRest := some (blockBytes B1'), valid := true } := by
        unfold itNext itInit
        dsimp only
        rw [show (-1 : Int) + 1 = Int.ofNat 0 from rfl,
          loadBlock_some r ((e1 :: B1') :: Cs') post hrf hri 0 (by simp), hget0]
        dsimp only
        rw [itReadEntry_cons _ e1 B1' hkl1 hvl1]
      unfold sstIterate
      rw [hstart]
      rw [itCollect_run r ((e1 :: B1') :: Cs') post hrf hri hne hbounds
        (((e1 :: B1') :: Cs').flatten.length + 1) Cs' B1' 0
        { itInit with blockIdx := Int.ofNat 0, key := e1.key, value := e1.value, deleted := e1.deleted, blockRest := some (blockBytes B1'), valid := true }
        rfl (by simp) rfl rfl rfl
        (fun x hx => List.mem_flatten.mpr ⟨e1 :: B1', by simp, by simp [hx]⟩)
        (by
          simp only [List.flatten_cons, List.length_append, List.length_cons]
          omega)]
      simp

/-- C5: For every finite sequence of entries with strictly increasing keys
written through `SSTableWriter.Add` followed by `Finish`, opening the
resulting file with `OpenSSTable` succeeds, iterating from `SeekToFirst`
yields exactly the written entries (key, value, deleted flag) in the same
order including tombstones, and `Get` on each written key returns that
entry's value and deleted flag with `found = true`.  Machine-width side
conditions: key/value lengths and the entry count below `2^32`, the file
below `2^64` bytes, and `bitsPerKey ≤ 2^31`. -/
theorem sstable_roundtrip (es : List TableEntry) (bpk : Nat)
    (hsorted : List.Pairwise (fun a b => compareBytes a.key b.key = -1) es)
    (hbounds : ∀ e ∈ es, e.key.length < 2 ^ 32 ∧ e.value.length < 2 ^ 32)
    (hcount : es.length < 2 ^ 32)
    (hbpk : bpk ≤ 2 ^ 31)
    (hfile : ((es.foldl SSTableWriter.Add (NewSSTableWriter bpk)).Finish).length < 2 ^ 64) :
    ∃ r, OpenSSTable ((es.foldl SSTableWriter.Add (NewSSTableWriter bpk)).Finish) = some r ∧
      sstIterate r (es.length + 1) = es ∧
      ∀ e ∈ es, r.Get e.key = (e.value, e.deleted, true) := by
  have hflat : (chunkEntries es []).flatten = es := by
    have h := chunkEntries_flatten es []
    simpa using h
  have hneCs : ∀ B ∈ chunkEntries es [], B ≠ [] := chunkEntries_ne_nil es []
  have hCslen : (chunkEntries es []).length ≤ es.length := by
    have h := chunkEntries_length_le es []
    simpa using h
  have hwfb : ∀ bf, (es.foldl SSTableWriter.Add (NewSSTableWriter bpk)).bloomFilter
      = some bf → bf.WF := by
    have h := fold_add_bloom_wf es (NewSSTableWriter bpk) hbpk
      (fun bf hb => by simp [NewSSTableWriter] at hb)
    exact h.2
  have hfinish := sstw_finish_eq es bpk
  have hflen : (sstFileBytes (chunkEntries es [])
      (es.foldl SSTableWriter.Add (NewSSTableWriter bpk)).bloomFilter).length < 2 ^ 64 := by
    rw [← hfinish]
    exact hfile
  have hkeysCs : ∀ B ∈ chunkEntries es [], (B.headD noEntry).key.length < 2 ^ 32 := by
    intro B hB
    have hmem : B.headD noEntry ∈ es := by
      rw [← hflat]
      exact List.mem_flatten.mpr ⟨B, hB, headD_mem_entry (hneCs B hB)⟩
    exact (hbounds _ hmem).1
  have hCn : (chunkEntries es []).length < 2 ^ 32 := lt_of_le_of_lt hCslen hcount
  have hopen := open_sstFile (chunkEntries es [])
    (es.foldl SSTableWriter.Add (NewSSTableWriter bpk)).bloomFilter hwfb hCn hkeysCs hflen
  have hboundsCs : ∀ x ∈ (chunkEntries es []).flatten,
      x.key.length < 2 ^ 32 ∧ x.value.length < 2 ^ 32 := by
    rw [hflat]
    exact hbounds
  have hsortedCs : List.Pairwise (fun a b => compareBytes a.key b.key = -1)
      (chunkEntries es []).flatten := by
    rw [hflat]
    exact hsorted
  refine ⟨{ file := sstFileBytes (chunkEntries es [])
              (es.foldl SSTableWriter.Add (NewSSTableWriter bpk)).bloomFilter,
            index := indexOfBlocks (chunkEntries es []) 0,
            bloomFilter := (es.foldl SSTableWriter.Add (NewSSTableWriter bpk)).bloomFilter },
    ?_, ?_, ?_⟩
  · rw [hfinish]
    exact hopen
  · have hit := sstIterate_run (chunkEntries es [])
      (indexBytes (indexOfBlocks (chunkEntries es []) 0) ++
        ((bloomBlock (es.foldl SSTableWriter.Add (NewSSTableWriter bpk)).bloomFilter) ++
          footerBytes (outBytes (chunkEntries es [])).length
            (indexBytes (indexOfBlocks (chunkEntries es []) 0)).length
            (bloomBlock (es.foldl SSTableWriter.Add (NewSSTableWriter bpk)).bloomFilter).length))
      { file := sstFileBytes (chunkEntries es [])
          (es.foldl SSTableWriter.Add (NewSSTableWriter bpk)).bloomFilter,
        index := indexOfBlocks (chunkEntries es []) 0,
        bloomFilter := (es.foldl SSTableWriter.Add (NewSSTableWriter bpk)).bloomFilter }
      rfl rfl hneCs hboundsCs
    rw [hflat] at hit
    exact hit
  · intro e he
    have heCs : e ∈ (chunkEntries es []).flatten := by
      rw [hflat]
      exact he
    obtain ⟨B, hB, heB⟩ := List.mem_flatten.mp heCs
    obtain ⟨p, hp, hBel⟩ := List.mem_iff_getElem.mp hB
    have hep : e ∈ (chunkEntries es []).getD p [] := by
      rw [List.getD_eq_getElem _ [] hp, hBel]
      exact heB
    exact sst_get_finds (chunkEntries es [])
      (indexBytes (indexOfBlocks (chunkEntries es []) 0) ++
        ((bloomBlock (es.foldl SSTableWriter.Add (NewSSTableWriter bpk)).bloomFilter) ++
          footerBytes (outBytes (chunkEntries es [])).length
            (indexBytes (indexOfBlocks (chunkEntries es []) 0)).length
            (bloomBlock (es.foldl SSTableWriter.Add (NewSSTableWriter bpk)).bloomFilter).length))
      (es.foldl SSTableWriter.Add (NewSSTableWriter bpk)).bloomFilter e p hp hep
      hneCs hboundsCs hsortedCs

set_option maxRecDepth 100000 in
/-- Witness for C5 on a concrete two-entry table (with a tombstone), Bloom
filter enabled at 10 bits per key. -/
theorem sstable_roundtrip_witness :
    ∃ r, OpenSSTable ((wEs.foldl SSTableWriter.Add (NewSSTableWriter 10)).Finish) = some r ∧
      sstIterate r (wEs.length + 1) = wEs ∧
      ∀ e ∈ wEs, r.Get e.key = (e.value, e.deleted, true) :=
  sstable_roundtrip wEs 10 (by decide) (by decide) (by decide) (by decide) (by decide)

end TinyLsm
